import Mathlib

/-!
Verification of `scripts/west_commands/sbom/output_pre_process.py` (`pre_process`).

The Python module is embedded shallowly:

* Python dicts become association lists (`List (String × α)`): insertion
  order is preserved, and keys are unique in every reachable state.
* Python sets become duplicate-free lists (`List String`); the source uses
  only order-independent set operations (`add`, `update`, `-=`, `union`,
  `len`, `sorted`), so the insertion order carried by the list never leaks
  into the result — this is proved where a claim needs it.
* Python's stable ascending `sort`/`sorted` becomes a structural insertion
  sort over the code-point lexicographic comparison `strLe`, which is the
  comparison Python uses on `str`.
* The three collaborator functions from `license_utils`
  (`get_spdx_license_expr_info`, `is_spdx_license`, `get_license`) are an
  explicit parameter `Env`; that module is outside the verified core.
* `pre_process` returns `Option Data`: `none` models the one reachable
  Python exception (an `AttributeError` in the license sort key when a
  catalog value is `None`); the remaining subscript lookups are provably on
  present keys and are embedded totally with a skip on the unreachable
  branch.
-/

namespace Sbom

/-! ### Strings: Python comparison and stable sorting -/

/-- Code-point lexicographic comparison of character lists, as Python
compares strings. -/
def lexLe : List Char → List Char → Bool
  | [], _ => true
  | _ :: _, [] => false
  | c :: cs, d :: ds =>
    if c.toNat < d.toNat then true
    else if d.toNat < c.toNat then false
    else lexLe cs ds

/-- `a <= b` on Python strings. -/
def strLe (a b : String) : Bool := lexLe a.data b.data

/-- `s.upper()` (ASCII case mapping, as the license tokens are ASCII). -/
def pyUpper (s : String) : String := ⟨s.data.map Char.toUpper⟩

/-- `s.startswith(pat)`. -/
def pyStartsWith (s pat : String) : Bool := pat.data.isPrefixOf s.data

/-- `s.endswith(pat)`. -/
def pyEndsWith (s pat : String) : Bool := pat.data.isSuffixOf s.data

/-- Stable ordered insertion: the new element goes before the first strictly
larger element and after existing equal ones. -/
def insertByKey (key : α → String) (a : α) : List α → List α
  | [] => [a]
  | b :: l => if strLe (key a) (key b) then a :: b :: l else b :: insertByKey key a l

/-- Python's stable ascending `sort(key=...)` / `sorted(key=...)`. -/
def sortByKey (key : α → String) : List α → List α
  | [] => []
  | a :: l => insertByKey key a (sortByKey key l)

/-- Python `sorted` on strings. -/
def pySortStr (l : List String) : List String := sortByKey (fun s => s) l

/-! ### Python sets as duplicate-free lists -/

/-- `s.add(x)`. -/
def sAdd (s : List String) (x : String) : List String :=
  if x ∈ s then s else s ++ [x]

/-- `s.update(xs)`. -/
def sUpdate (s : List String) (xs : List String) : List String :=
  xs.foldl sAdd s

/-- A set built from an iterable (e.g. a set comprehension). -/
def sOfList (xs : List String) : List String := sUpdate [] xs

/-- `s -= t` (difference). -/
def sDiff (s t : List String) : List String :=
  s.filter (fun x => decide (x ∉ t))

/-- `s.union(t)`. -/
def sUnion (s t : List String) : List String := sUpdate s t

/-! ### Data model -/

/-- Result record of `get_spdx_license_expr_info` (external resolver). -/
structure ExprInfo where
  valid : Bool
  is_id_only : Bool
  or_present : Bool
  licenses : List String
  friendly_expr : String
deriving DecidableEq

/-- An atomic license entry (`data_structure.License`). -/
structure License where
  id : String
  friendly_id : String
  custom : Bool
deriving DecidableEq

/-- A compound license-expression entry (`data_structure.LicenseExpr`). -/
structure LicenseExpr where
  valid : Bool
  id : String
  friendly_id : String
  licenses : List String
  custom : Bool
deriving DecidableEq

/-- A value stored in `data.licenses`: `License` or `LicenseExpr`
(`is_expr` is the constructor tag). -/
inductive LicEntry where
  | lic (l : License)
  | expr (e : LicenseExpr)
deriving DecidableEq

/-- A scanned file record. -/
structure File where
  file_path : String
  licenses : List String
  detectors : List String
  package : String
  license_expr : String
  spdx_id : String
deriving DecidableEq

/-- A package record. -/
structure Package where
  id : String
  name : Option String
  version : Option String
  url : Option String
  browser_url : Option String
  external_refs : Option (List String)
  spdx_id : Option String
deriving DecidableEq

/-- An SPDX relationship record. -/
structure Relationship where
  spdx_id : String
  relationship_type : String
  related_spdx_id : String
deriving DecidableEq

/-- `data.licenses`: a Python dict, value `Option LicEntry` (`none` is Python `None`). -/
abbrev LicDict := List (String × Option LicEntry)

/-- The aggregate `Data` object. `relationships = none` models the attribute
being absent (`hasattr` check in the source). -/
structure Data where
  files : List File
  packages : List (String × Package)
  licenses : LicDict
  licenses_sorted : List String
  packages_sorted : List String
  detectors : List String
  relationships : Option (List Relationship)
deriving DecidableEq

/-- The three collaborator functions from `license_utils`, treated as pure. -/
structure Env where
  get_spdx_license_expr_info : String → ExprInfo
  is_spdx_license : String → Bool
  get_license : String → Option License

/-! ### Python dict primitives on association lists -/

/-- `k in d` for a Python dict. -/
def dictContains : List (String × α) → String → Bool
  | [], _ => false
  | kv :: rest, k => kv.1 == k || dictContains rest k

/-- `d.get(k)` for a Python dict (also the value of a `d[k]` subscript when
the key is present). -/
def dictGet : List (String × α) → String → Option α
  | [], _ => none
  | kv :: rest, k => if kv.1 == k then some kv.2 else dictGet rest k

/-- `d[k] = v`: overwrite in place if the key exists, else append. -/
def dictSet : List (String × α) → String → α → List (String × α)
  | [], k, v => [(k, v)]
  | kv :: rest, k, v => if kv.1 == k then (k, v) :: rest else kv :: dictSet rest k v

/-- Mutation of the value stored under an existing key (no-op if absent). -/
def dictUpdate : List (String × α) → String → (α → α) → List (String × α)
  | [], _, _ => []
  | kv :: rest, k, f =>
    (if kv.1 == k then (kv.1, f kv.2) else kv) :: dictUpdate rest k f

/-- `del d[k]`. -/
def dictErase : List (String × α) → String → List (String × α)
  | [], _ => []
  | kv :: rest, k => if kv.1 == k then dictErase rest k else kv :: dictErase rest k

/-- `d.keys()` in insertion order. -/
def dictKeys (d : List (String × α)) : List String :=
  d.map (·.1)

/-! ### Pass 1: file sorter -/

/-- `data.files.sort(key=lambda f: f.file_path)` (stable ascending sort). -/
def sortFilesPass (d : Data) : Data :=
  { d with files := sortByKey (fun f => f.file_path) d.files }

/-! ### Pass 2: license-expression builder -/

/-- The three working sets built from a file's raw license tokens. -/
structure TokenSets where
  simple : List String
  ors : List String
  repeated : List String
deriving DecidableEq

/-- One iteration of the token-classification loop. -/
def classifyStep (env : Env) (acc : TokenSets) (license0 : String) : TokenSets :=
  let license := pyUpper license0
  let info := env.get_spdx_license_expr_info license
  let acc :=
    if info.valid && !info.is_id_only && decide (info.licenses.length > 1) then
      { acc with repeated := sUpdate acc.repeated info.licenses }
    else acc
  if !info.valid || info.or_present then { acc with ors := sAdd acc.ors license }
  else { acc with simple := sAdd acc.simple license }

/-- The full classification loop over a file's raw license tokens. -/
def classifyTokens (env : Env) (licenses : List String) : TokenSets :=
  licenses.foldl (classifyStep env) ⟨[], [], []⟩

/-- `file.licenses if len(file.licenses) > 0 else ['']`. -/
def sentinelLicenses (licenses : List String) : List String :=
  if licenses.length > 0 then licenses else [""]

/-- The sorted item list joined with `" AND "`: simple items minus repeated
ones, united with the (possibly parenthesized) or-items. -/
def joinedItems (env : Env) (licenses : List String) : List String :=
  let ts := classifyTokens env licenses
  let simple := sDiff ts.simple ts.repeated
  let ors :=
    if ts.ors.length > 1 || simple.length > 0 then
      sOfList (ts.ors.map (fun x => "(" ++ x ++ ")"))
    else ts.ors
  pySortStr (sUnion simple ors)

/-- The normalized SPDX expression computed for one file's raw license list. -/
def buildLicenseExpr (env : Env) (licenses0 : List String) : String :=
  String.intercalate " AND " (joinedItems env (sentinelLicenses licenses0))

/-- The per-file loop storing `file.license_expr`. -/
def licenseExprPass (env : Env) (d : Data) : Data :=
  { d with files := d.files.map (fun f => { f with license_expr := buildLicenseExpr env f.licenses }) }

/-! ### Pass 3: detector aggregator -/

/-- `data.detectors.update(file.detectors)` over all files. -/
def detectorsPass (d : Data) : Data :=
  { d with detectors := d.files.foldl (fun acc f => sUpdate acc f.detectors) d.detectors }

/-! ### Pass 4: license catalog builder -/

/-- `expr.custom`: not valid, or some constituent is not a registry SPDX id. -/
def exprCustom (env : Env) (info : ExprInfo) : Bool :=
  !info.valid || info.licenses.any (fun id => !env.is_spdx_license id)

/-- The `LicenseExpr` entry built for an uncataloged `license_expr`. -/
def mkLicenseExprEntry (env : Env) (key : String) (info : ExprInfo) : LicenseExpr :=
  { valid := info.valid
    id := key
    friendly_id := info.friendly_expr
    licenses := pySortStr info.licenses
    custom := exprCustom env info }

/-- Resolution of one constituent identifier (the three-branch `elif` chain).
The synthetic fallback `License` sets only `id`/`friendly_id` in the source;
its `custom` flag is modelled from the spec (`data_structure.py` is not in
src): a license not known to the registry is custom. -/
def resolveId (env : Env) (dataLicenses : LicDict) (id : String) : Option LicEntry :=
  if env.is_spdx_license id then (env.get_license id).map LicEntry.lic
  else if dictContains dataLicenses id then (dictGet dataLicenses id).getD none
  else
    match env.get_license id with
    | some l => some (.lic l)
    | none => some (.lic { id := id, friendly_id := id, custom := true })

/-- One iteration of the constituent-identifier loop: register `id` if not
yet cataloged. -/
def catalogIdStep (env : Env) (dataLicenses : LicDict) (used : LicDict) (id : String) :
    LicDict :=
  if dictContains used id then used else used ++ [(id, resolveId env dataLicenses id)]

/-- Catalog contribution of one file (the body only reads
`file.license_expr`, passed here as the string itself). -/
def catalogStep (env : Env) (dataLicenses : LicDict) (used : LicDict) (license_expr : String) :
    LicDict :=
  if dictContains used license_expr then used
  else
    let info := env.get_spdx_license_expr_info license_expr
    let used :=
      if !info.valid || !info.is_id_only then
        used ++ [(license_expr, some (.expr (mkLicenseExprEntry env license_expr info)))]
      else used
    info.licenses.foldl (catalogIdStep env dataLicenses) used

/-- `data.licenses = used_licenses` after the per-file catalog loop. -/
def catalogPass (env : Env) (d : Data) : Data :=
  { d with licenses := d.files.foldl (fun used f => catalogStep env d.licenses used f.license_expr) [] }

/-- Closure property of a catalog: every compound entry's constituents are
keys. -/
def catClosed (used : LicDict) : Prop :=
  ∀ k e, (k, some (LicEntry.expr e)) ∈ used →
    ∀ id ∈ e.licenses, dictContains used id = true

/-- The decimal digit string of a natural number (front-to-back), the value
computed by `Nat.toDigits 10`; used to reason about `toString` on the
`SPDXRef-…-{n}` identifiers. -/
def decimalDigits (n : Nat) : List Char :=
  if _h : n < 10 then [Nat.digitChar n]
  else decimalDigits (n / 10) ++ [Nat.digitChar (n % 10)]
decreasing_by exact Nat.div_lt_self (by omega) (by omega)

/-! ### Pass 5a: license catalog ordering -/

/-- The `lic_reorder` sort key. The source would raise an `AttributeError`
when the stored value is Python `None` and the key is not `""`;
`licensesSortedPass` checks that condition up front, so the final wildcard
branch here is unreachable when the pass succeeds. -/
def lic_reorder (licenses : LicDict) (id : String) : String :=
  if id = "" then "A"
  else
    match dictGet licenses id with
    | some (some (.expr e)) => if e.custom then "B" ++ id else "E" ++ id
    | some (some (.lic l)) =>
      if pyStartsWith id "LicenseRef-" then "D" ++ id
      else if l.custom then "C" ++ id else "F" ++ id
    | _ => ""

/-- `data.licenses_sorted = sorted(data.licenses.keys(), key=lic_reorder)`;
`none` models the `AttributeError` raised by the key function on a `None`
catalog value under a non-empty key. -/
def licensesSortedPass (d : Data) : Option Data :=
  if d.licenses.all (fun kv => kv.1 == "" || kv.2.isSome) then
    some { d with licenses_sorted := sortByKey (lic_reorder d.licenses) (dictKeys d.licenses) }
  else none

/-! ### Pass 5b: identifier assignment and package normalization -/

/-- `data.packages_sorted = sorted(data.packages.keys())`. -/
def packagesSortedPass (d : Data) : Data :=
  { d with packages_sorted := pySortStr (dictKeys d.packages) }

/-- One iteration of the package identifier loop: assign
`SPDXRef-Package-{counter}` and default `external_refs`, then increment the
counter. -/
def spdxAssignStep (acc : List (String × Package) × Nat) (pid : String) :
    List (String × Package) × Nat :=
  (dictUpdate acc.1 pid (fun p =>
    { p with spdx_id := some ("SPDXRef-Package-" ++ toString acc.2),
             external_refs := some (p.external_refs.getD []) }), acc.2 + 1)

/-- The package half of identifier assignment: `SPDXRef-Package-{n}` in
`packages_sorted` order, with `external_refs` defaulted to `[]`. -/
def spdxAssignPackages (sorted : List String) (pkgs : List (String × Package)) :
    List (String × Package) :=
  (sorted.foldl spdxAssignStep (pkgs, 1)).1

/-- SPDX identifier assignment: `SPDXRef-Package-{n}` over `packages_sorted`
(also defaulting `external_refs`), then `SPDXRef-File-{n}` over `files`. -/
def spdxAssignPass (d : Data) : Data :=
  let files := d.files.enum.map
    (fun p => { p.2 with spdx_id := "SPDXRef-File-" ++ toString (p.1 + 1) })
  { d with packages := spdxAssignPackages d.packages_sorted d.packages, files := files }

/-- Python `a or b` on strings (`''` is falsy). -/
def pyOrS (a b : String) : String := if a = "" then b else a

/-- Index (in characters) of the first occurrence of `pat`, as `str.find`. -/
def subIdx? (pat : List Char) : List Char → Option Nat
  | [] => if pat.isPrefixOf ([] : List Char) then some 0 else none
  | c :: tl =>
    if pat.isPrefixOf (c :: tl) then some 0 else (subIdx? pat tl).map (· + 1)

/-- Name derivation from a `github.com` URL: everything after `github.com/`,
with a trailing `.git` stripped; `none` when the URL has no `github.com`. -/
def githubName (url : String) : Option String :=
  match subIdx? "github.com".data url.data with
  | none => none
  | some i =>
    let name := (url.data.drop (i + "github.com".length + 1)).asString
    some (if pyEndsWith name ".git" then name.dropRight 4 else name)

/-- State of the package-normalization loop: the packages dict plus the
`package_name_map` (name → package id; the source stores the object itself,
the embedding stores its key). -/
structure PkgState where
  pkgs : List (String × Package)
  nameMap : List (String × String)

/-- One iteration of the package-normalization loop in the source: default
`version`, skip when `url` is unset, derive `name`, resolve a name collision
by suffixing both sides with `-{version}`, set `browser_url`. The two
`none` fallbacks are unreachable: the loop runs over the dict's own keys,
and the name map only holds keys of processed packages. -/
def packageInfoStep (st : PkgState) (pid : String) : PkgState :=
  match dictGet st.pkgs pid with
  | none => st
  | some p0 =>
    let p1 := { p0 with version := some (p0.version.getD "NoneVersion") }
    match p1.url with
    | none => { st with pkgs := dictUpdate st.pkgs pid (fun _ => p1) }
    | some url =>
      let p2 :=
        if p1.name.isNone then
          match githubName url with
          | some n => { p1 with name := some n }
          | none => p1
        else p1
      let p3 :=
        if p2.name.isNone then { p2 with name := some (pyOrS p2.id (pyOrS url "NoneName")) }
        else p2
      let nm := p3.name.getD ""
      match dictGet st.nameMap nm with
      | some epid =>
        let map1 := dictErase st.nameMap nm
        let p4 := { p3 with name := some (nm ++ "-" ++ p3.version.getD "NoneVersion") }
        let step :=
          match dictGet st.pkgs epid with
          | some ep =>
            let epNew :=
              { ep with name := some (ep.name.getD "" ++ "-" ++ ep.version.getD "NoneVersion") }
            (dictUpdate st.pkgs epid (fun _ => epNew), dictSet map1 (epNew.name.getD "") epid)
          | none => (st.pkgs, map1)
        let map3 := dictSet step.2 (p4.name.getD "") pid
        let p5 :=
          if p4.browser_url.isNone && pyStartsWith url "http" then
            { p4 with browser_url := some url }
          else p4
        { pkgs := dictUpdate step.1 pid (fun _ => p5), nameMap := map3 }
      | none =>
        let map3 := dictSet st.nameMap nm pid
        let p5 :=
          if p3.browser_url.isNone && pyStartsWith url "http" then
            { p3 with browser_url := some url }
          else p3
        { pkgs := dictUpdate st.pkgs pid (fun _ => p5), nameMap := map3 }

/-- The package display-metadata normalization loop over a packages dict. -/
def packageInfoPackages (pkgs : List (String × Package)) : List (String × Package) :=
  ((dictKeys pkgs).foldl packageInfoStep ⟨pkgs, []⟩).pkgs

/-- The package display-metadata normalization pass. -/
def packageInfoPass (d : Data) : Data :=
  { d with packages := packageInfoPackages d.packages }

/-! ### Pass 6: relationship deriver -/

/-- `_should_keep_relationship`. -/
def keepRel (r : Relationship) : Bool :=
  !(r.spdx_id == "SPDXRef-DOCUMENT" && r.relationship_type == "DESCRIBES")
    && !(r.relationship_type == "CONTAINS")

/-- Python truthiness of an optional string attribute. -/
def optTruthy : Option String → Bool
  | none => false
  | some s => !(s == "")

/-- `package_to_files.setdefault(file.package, list()).append(file.spdx_id)`. -/
def p2fAdd (m : List (String × List String)) (pid fid : String) : List (String × List String) :=
  if dictContains m pid then dictUpdate m pid (fun l => l ++ [fid]) else m ++ [(pid, [fid])]

/-- `package_to_files`, grouped in first-seen order. -/
def p2fOf (files : List File) : List (String × List String) :=
  files.foldl (fun m f => p2fAdd m f.package f.spdx_id) []

/-- The fresh `DESCRIBES` edges, one per sorted package owning a file. -/
def describesOf (pkgs : List (String × Package)) (sorted : List String)
    (p2f : List (String × List String)) : List Relationship :=
  sorted.foldl
    (fun acc pid =>
      match dictGet pkgs pid with
      | none => acc
      | some pkg =>
        if optTruthy pkg.spdx_id && dictContains p2f pid then
          acc ++ [{ spdx_id := "SPDXRef-DOCUMENT", relationship_type := "DESCRIBES",
                    related_spdx_id := pkg.spdx_id.getD "" }]
        else acc) []

/-- The fresh `CONTAINS` edges, per group then per owned file. -/
def containsOf (pkgs : List (String × Package)) (p2f : List (String × List String)) :
    List Relationship :=
  p2f.foldl
    (fun acc kv =>
      match dictGet pkgs kv.1 with
      | none => acc
      | some pkg =>
        if optTruthy pkg.spdx_id then
          acc ++ kv.2.map (fun fid =>
            { spdx_id := pkg.spdx_id.getD "", relationship_type := "CONTAINS",
              related_spdx_id := fid })
        else acc) []

/-- The relationship rebuild: filter stale `DESCRIBES`-from-document and
`CONTAINS` edges, then append one fresh `DESCRIBES` per package owning a
file and one fresh `CONTAINS` per owned file. In the `describes` loop the
source subscripts `data.packages[package_id]` directly, which cannot fail
because `packages_sorted` lists exactly the dict's keys; the embedding
skips that unreachable branch. -/
def relationshipsPass (d : Data) : Data :=
  let base :=
    match d.relationships with
    | some rels => rels.filter keepRel
    | none => []
  let p2f := p2fOf d.files
  let rels := base ++ describesOf d.packages d.packages_sorted p2f ++ containsOf d.packages p2f
  { d with relationships := some rels }

/-- The whole `pre_process` function, composing the six passes in source
order. -/
def pre_process (env : Env) (d : Data) : Option Data :=
  (licensesSortedPass (catalogPass env (detectorsPass (licenseExprPass env (sortFilesPass d))))).map
    (fun d => relationshipsPass (packageInfoPass (spdxAssignPass (packagesSortedPass d))))

/-- The files of the output, as a function of the input files: sort by path,
store the built license expression, then number `spdx_id` positionally. -/
def processFiles (env : Env) (files : List File) : List File :=
  (((sortByKey (fun f => f.file_path) files).map
      (fun f => { f with license_expr := buildLicenseExpr env f.licenses })).enum).map
    (fun p => { p.2 with spdx_id := "SPDXRef-File-" ++ toString (p.1 + 1) })

/-! ### Concrete collaborators and data sets for witnesses and counterexamples -/

/-- A small concrete resolver/registry: `A`, `B`, `MIT`, `GPL-2.0`,
`Apache-2.0`, `APACHE-2.0` are known bare identifiers, `A OR B` is a valid
compound OR expression, everything else is invalid. -/
def env0 : Env where
  get_spdx_license_expr_info s :=
    if s = "A OR B" then ⟨true, false, true, ["A", "B"], "A OR B"⟩
    else if s = "A" || s = "B" || s = "MIT" || s = "GPL-2.0" || s = "Apache-2.0"
        || s = "APACHE-2.0" then ⟨true, true, false, [s], s⟩
    else ⟨false, false, false, [], s⟩
  is_spdx_license s :=
    s = "A" || s = "B" || s = "MIT" || s = "GPL-2.0" || s = "Apache-2.0" || s = "APACHE-2.0"
  get_license s :=
    if s = "A" || s = "B" || s = "MIT" || s = "GPL-2.0" || s = "Apache-2.0"
        || s = "APACHE-2.0" then some ⟨s, s, false⟩
    else none

/-- A `Data` value with every container empty and no `relationships`
attribute. -/
def emptyData : Data :=
  { files := [], packages := [], licenses := [], licenses_sorted := [],
    packages_sorted := [], detectors := [], relationships := none }

/-- A file record as the scanner creates it (derived fields still empty). -/
def mkFile (p pkg : String) (lic : List String) : File :=
  { file_path := p, licenses := lic, detectors := [], package := pkg,
    license_expr := "", spdx_id := "" }

/-- A package record as the scanner creates it. -/
def mkPkg (i : String) (nm ver u : Option String) : Package :=
  { id := i, name := nm, version := ver, url := u, browser_url := none,
    external_refs := none, spdx_id := none }

/-- One file with an empty raw license list, owned by a package id that is
not in `packages`. -/
def dataNoLic : Data := { emptyData with files := [mkFile "a.c" "P" []] }

/-- One file whose single raw license is the mixed-case identifier
`Apache-2.0`. -/
def dataApache : Data :=
  { emptyData with files := [mkFile "a.c" "P" ["Apache-2.0"]],
                   packages := [("P", mkPkg "P" (some "P") none none)] }

/-- The output record `pre_process` produces for the file of `dataApache`. -/
def apacheFileOut : File :=
  { file_path := "a.c", licenses := ["Apache-2.0"], detectors := [], package := "P",
    license_expr := "APACHE-2.0", spdx_id := "SPDXRef-File-1" }

/-- Two packages with the same preset name and no `url`. -/
def dataTwoUrlless : Data :=
  { emptyData with packages :=
      [("p1", mkPkg "p1" (some "X") none none), ("p2", mkPkg "p2" (some "X") none none)] }

/-- One nameless package with a two-segment `github.com` URL. -/
def dataGithub : Data :=
  { emptyData with packages :=
      [("pg", mkPkg "pg" none none (some "https://github.com/org/repo"))] }

/-- Two packages with the same name, distinct versions, and URLs set. -/
def dataCollide : Data :=
  { emptyData with packages :=
      [("p1", mkPkg "p1" (some "X") (some "1.0") (some "http://u1")),
       ("p2", mkPkg "p2" (some "X") (some "2.0") (some "http://u2"))] }

/-- One package `P` owning one file, with a stale document-`DESCRIBES`
edge, a stale `CONTAINS` edge, and one ordinary relationship in the input. -/
def dataC5 : Data :=
  { emptyData with
      files := [mkFile "a.c" "P" ["Apache-2.0"]],
      packages := [("P", mkPkg "P" (some "P") none none)],
      relationships := some
        [⟨"SPDXRef-DOCUMENT", "DESCRIBES", "stale-pkg"⟩,
         ⟨"stale-src", "CONTAINS", "stale-file"⟩,
         ⟨"a", "DEPENDS_ON", "b"⟩] }

/-! ## Order properties of the string comparison -/

theorem lexLe_cons_iff {a b : Char} {as bs : List Char} :
    lexLe (a :: as) (b :: bs) = true ↔
      a.toNat < b.toNat ∨ (a.toNat = b.toNat ∧ lexLe as bs = true) := by
  simp only [lexLe]
  split
  · rename_i h
    exact iff_of_true rfl (Or.inl h)
  · split
    · rename_i h1 h2
      refine iff_of_false (by simp) ?_
      rintro (h | ⟨h, _⟩) <;> omega
    · rename_i h1 h2
      have he : a.toNat = b.toNat := by omega
      simp [he]

theorem lexLe_total : ∀ a b : List Char, lexLe a b = true ∨ lexLe b a = true
  | [], _ => Or.inl rfl
  | _ :: _, [] => Or.inr rfl
  | a :: as, b :: bs => by
    rw [lexLe_cons_iff, lexLe_cons_iff]
    rcases Nat.lt_trichotomy a.toNat b.toNat with h | h | h
    · exact Or.inl (Or.inl h)
    · rcases lexLe_total as bs with h' | h'
      · exact Or.inl (Or.inr ⟨h, h'⟩)
      · exact Or.inr (Or.inr ⟨h.symm, h'⟩)
    · exact Or.inr (Or.inl h)

theorem lexLe_trans : ∀ a b c : List Char,
    lexLe a b = true → lexLe b c = true → lexLe a c = true
  | [], _, _, _, _ => rfl
  | _ :: _, [], _, h, _ => by simp [lexLe] at h
  | _ :: _, _ :: _, [], _, h => by simp [lexLe] at h
  | a :: as, b :: bs, c :: cs, h1, h2 => by
    rw [lexLe_cons_iff] at h1 h2 ⊢
    rcases h1 with h1 | ⟨h1, h1'⟩ <;> rcases h2 with h2 | ⟨h2, h2'⟩
    · exact Or.inl (by omega)
    · exact Or.inl (by omega)
    · exact Or.inl (by omega)
    · exact Or.inr ⟨by omega, lexLe_trans as bs cs h1' h2'⟩

theorem charToNat_inj {c d : Char} (h : c.toNat = d.toNat) : c = d := by
  have h1 := Char.ofNat_toNat c
  have h2 := Char.ofNat_toNat d
  rw [h] at h1
  exact h1.symm.trans h2

theorem lexLe_antisymm : ∀ a b : List Char, lexLe a b = true → lexLe b a = true → a = b
  | [], [], _, _ => rfl
  | _ :: _, [], h, _ => by simp [lexLe] at h
  | [], _ :: _, _, h => by simp [lexLe] at h
  | a :: as, b :: bs, h1, h2 => by
    rw [lexLe_cons_iff] at h1 h2
    rcases h1 with h1 | ⟨h1, h1'⟩
    · rcases h2 with h2 | ⟨h2, _⟩ <;> omega
    · rcases h2 with h2 | ⟨h2, h2'⟩
      · omega
      · rw [charToNat_inj h1, lexLe_antisymm as bs h1' h2']

theorem strLe_total (a b : String) : strLe a b = true ∨ strLe b a = true :=
  lexLe_total a.data b.data

theorem strLe_trans {a b c : String} (h1 : strLe a b = true) (h2 : strLe b c = true) :
    strLe a c = true :=
  lexLe_trans a.data b.data c.data h1 h2

theorem strLe_antisymm {a b : String} (h1 : strLe a b = true) (h2 : strLe b a = true) : a = b := by
  cases a; cases b
  exact congrArg String.mk (lexLe_antisymm _ _ h1 h2)

/-! ## Properties of the stable insertion sort -/

theorem insertByKey_perm (key : α → String) (a : α) :
    ∀ l : List α, List.Perm (insertByKey key a l) (a :: l)
  | [] => List.Perm.refl _
  | b :: l => by
    simp only [insertByKey]
    split
    · exact List.Perm.refl _
    · exact ((insertByKey_perm key a l).cons b).trans (List.Perm.swap a b l)

theorem sortByKey_perm (key : α → String) : ∀ l : List α, List.Perm (sortByKey key l) l
  | [] => List.Perm.refl _
  | a :: l => (insertByKey_perm key a (sortByKey key l)).trans ((sortByKey_perm key l).cons a)

theorem mem_sortByKey {key : α → String} {l : List α} {x : α} :
    x ∈ sortByKey key l ↔ x ∈ l :=
  (sortByKey_perm key l).mem_iff

theorem length_sortByKey (key : α → String) (l : List α) :
    (sortByKey key l).length = l.length :=
  (sortByKey_perm key l).length_eq

theorem pairwise_insertByKey {key : α → String} {a : α} {l : List α}
    (h : l.Pairwise (fun x y => strLe (key x) (key y) = true)) :
    (insertByKey key a l).Pairwise (fun x y => strLe (key x) (key y) = true) := by
  induction l with
  | nil => simp [insertByKey]
  | cons b l ih =>
    simp only [insertByKey]
    rcases List.pairwise_cons.mp h with ⟨hb, hl⟩
    split
    · rename_i hab
      refine List.pairwise_cons.mpr ⟨?_, h⟩
      intro y hy
      rcases hy with _ | hy
      · exact hab
      · exact strLe_trans hab (hb y (by assumption))
    · rename_i hab
      have hba : strLe (key b) (key a) = true := by
        rcases strLe_total (key a) (key b) with h' | h'
        · exact absurd h' hab
        · exact h'
      refine List.pairwise_cons.mpr ⟨?_, ih hl⟩
      intro y hy
      rcases List.mem_cons.mp ((insertByKey_perm key a l).mem_iff.mp hy) with rfl | hy'
      · exact hba
      · exact hb y hy'

theorem pairwise_sortByKey (key : α → String) (l : List α) :
    (sortByKey key l).Pairwise (fun x y => strLe (key x) (key y) = true) := by
  induction l with
  | nil => simp [sortByKey]
  | cons a l ih => exact pairwise_insertByKey ih

theorem sortByKey_of_pairwise {key : α → String} :
    ∀ {l : List α}, l.Pairwise (fun x y => strLe (key x) (key y) = true) →
      sortByKey key l = l
  | [], _ => rfl
  | a :: l, h => by
    rcases List.pairwise_cons.mp h with ⟨ha, hl⟩
    simp only [sortByKey, sortByKey_of_pairwise hl]
    cases l with
    | nil => rfl
    | cons b l => simp only [insertByKey, ha b (by simp), if_true]

/-- Two sorted lists of strings that are permutations of each other are equal. -/
theorem pySortStr_eq_of_perm_nodup {l₁ l₂ : List String}
    (h₁ : l₁.Nodup) (h₂ : l₂.Nodup) (hm : ∀ x, x ∈ l₁ ↔ x ∈ l₂) :
    pySortStr l₁ = pySortStr l₂ := by
  have hperm : List.Perm l₁ l₂ := (List.perm_ext_iff_of_nodup h₁ h₂).mpr hm
  have hp : List.Perm (pySortStr l₁) (pySortStr l₂) :=
    ((sortByKey_perm _ l₁).trans hperm).trans (sortByKey_perm _ l₂).symm
  haveI : IsAntisymm String (fun a b => strLe a b = true) := ⟨fun _ _ => strLe_antisymm⟩
  exact List.eq_of_perm_of_sorted hp (pairwise_sortByKey _ l₁) (pairwise_sortByKey _ l₂)

/-! ## Properties of the set operations -/

theorem mem_sAdd {s : List String} {x y : String} :
    y ∈ sAdd s x ↔ y ∈ s ∨ y = x := by
  unfold sAdd
  split
  · rename_i h; constructor
    · exact Or.inl
    · rintro (h' | rfl) <;> [exact h'; exact h]
  · simp [or_comm]

theorem nodup_sAdd {s : List String} (h : s.Nodup) (x : String) : (sAdd s x).Nodup := by
  unfold sAdd
  split
  · exact h
  · rename_i hx
    simpa [List.nodup_append, h] using hx

theorem sUpdate_nil (s : List String) : sUpdate s [] = s := rfl

theorem sUpdate_cons (s : List String) (x : String) (xs : List String) :
    sUpdate s (x :: xs) = sUpdate (sAdd s x) xs := rfl

theorem mem_sUpdate {s xs : List String} {y : String} :
    y ∈ sUpdate s xs ↔ y ∈ s ∨ y ∈ xs := by
  induction xs generalizing s with
  | nil => simp [sUpdate_nil]
  | cons x xs ih =>
    rw [sUpdate_cons, ih, mem_sAdd]
    simp only [List.mem_cons]
    tauto

theorem nodup_sUpdate {s : List String} (h : s.Nodup) (xs : List String) :
    (sUpdate s xs).Nodup := by
  induction xs generalizing s with
  | nil => exact h
  | cons x xs ih => exact ih (nodup_sAdd h x)

theorem mem_sOfList {xs : List String} {y : String} : y ∈ sOfList xs ↔ y ∈ xs := by
  simp [sOfList, mem_sUpdate]

theorem nodup_sOfList (xs : List String) : (sOfList xs).Nodup :=
  nodup_sUpdate List.nodup_nil xs

theorem mem_sDiff {s t : List String} {y : String} :
    y ∈ sDiff s t ↔ y ∈ s ∧ y ∉ t := by
  simp [sDiff]

theorem nodup_sDiff {s : List String} (h : s.Nodup) (t : List String) : (sDiff s t).Nodup :=
  h.filter _

theorem mem_sUnion {s t : List String} {y : String} :
    y ∈ sUnion s t ↔ y ∈ s ∨ y ∈ t :=
  mem_sUpdate

theorem nodup_sUnion {s : List String} (h : s.Nodup) (t : List String) : (sUnion s t).Nodup :=
  nodup_sUpdate h t

/-! ## Characterization of the token classification -/

/-- The first classification condition of the source: valid, not id-only,
decomposing into more than one identifier (the `repeated` update guard). -/
def condRep (env : Env) (u : String) : Bool :=
  let info := env.get_spdx_license_expr_info u
  info.valid && !info.is_id_only && decide (info.licenses.length > 1)

/-- The second classification condition of the source: invalid or containing
a top-level OR (the `or_expr_items` guard). -/
def condOr (env : Env) (u : String) : Bool :=
  let info := env.get_spdx_license_expr_info u
  !info.valid || info.or_present

theorem classifyStep_simple (env : Env) (acc : TokenSets) (t : String) :
    (classifyStep env acc t).simple =
      if condOr env (pyUpper t) then acc.simple else sAdd acc.simple (pyUpper t) := by
  simp only [classifyStep, condOr]
  split <;> split <;> simp_all

theorem classifyStep_ors (env : Env) (acc : TokenSets) (t : String) :
    (classifyStep env acc t).ors =
      if condOr env (pyUpper t) then sAdd acc.ors (pyUpper t) else acc.ors := by
  simp only [classifyStep, condOr]
  split <;> split <;> simp_all

theorem classifyStep_repeated (env : Env) (acc : TokenSets) (t : String) :
    (classifyStep env acc t).repeated =
      if condRep env (pyUpper t) then
        sUpdate acc.repeated (env.get_spdx_license_expr_info (pyUpper t)).licenses
      else acc.repeated := by
  simp only [classifyStep, condRep]
  split <;> split <;> simp_all

theorem foldl_classify_simple_mem (env : Env) (l : List String) (acc : TokenSets) (x : String) :
    x ∈ (l.foldl (classifyStep env) acc).simple ↔
      x ∈ acc.simple ∨ ∃ t ∈ l, pyUpper t = x ∧ condOr env x = false := by
  induction l generalizing acc with
  | nil => simp
  | cons t ts ih =>
    rw [List.foldl_cons, ih]
    rw [classifyStep_simple]
    split
    · rename_i hc
      simp only [List.mem_cons]
      constructor
      · rintro (h | ⟨u, hu, rfl, h2⟩)
        · exact Or.inl h
        · exact Or.inr ⟨u, Or.inr hu, rfl, h2⟩
      · rintro (h | ⟨u, hu, rfl, h2⟩)
        · exact Or.inl h
        · rcases hu with rfl | hu
          · rw [hc] at h2; cases h2
          · exact Or.inr ⟨u, hu, rfl, h2⟩
    · rename_i hc
      rw [Bool.not_eq_true] at hc
      simp only [mem_sAdd, List.mem_cons]
      constructor
      · rintro ((h | rfl) | ⟨u, hu, rfl, h2⟩)
        · exact Or.inl h
        · exact Or.inr ⟨t, Or.inl rfl, rfl, hc⟩
        · exact Or.inr ⟨u, Or.inr hu, rfl, h2⟩
      · rintro (h | ⟨u, hu, rfl, h2⟩)
        · exact Or.inl (Or.inl h)
        · rcases hu with rfl | hu
          · exact Or.inl (Or.inr rfl)
          · exact Or.inr ⟨u, hu, rfl, h2⟩

theorem foldl_classify_ors_mem (env : Env) (l : List String) (acc : TokenSets) (x : String) :
    x ∈ (l.foldl (classifyStep env) acc).ors ↔
      x ∈ acc.ors ∨ ∃ t ∈ l, pyUpper t = x ∧ condOr env x = true := by
  induction l generalizing acc with
  | nil => simp
  | cons t ts ih =>
    rw [List.foldl_cons, ih]
    rw [classifyStep_ors]
    split
    · rename_i hc
      simp only [mem_sAdd, List.mem_cons]
      constructor
      · rintro ((h | rfl) | ⟨u, hu, rfl, h2⟩)
        · exact Or.inl h
        · exact Or.inr ⟨t, Or.inl rfl, rfl, hc⟩
        · exact Or.inr ⟨u, Or.inr hu, rfl, h2⟩
      · rintro (h | ⟨u, hu, rfl, h2⟩)
        · exact Or.inl (Or.inl h)
        · rcases hu with rfl | hu
          · exact Or.inl (Or.inr rfl)
          · exact Or.inr ⟨u, hu, rfl, h2⟩
    · rename_i hc
      rw [Bool.not_eq_true] at hc
      simp only [List.mem_cons]
      constructor
      · rintro (h | ⟨u, hu, rfl, h2⟩)
        · exact Or.inl h
        · exact Or.inr ⟨u, Or.inr hu, rfl, h2⟩
      · rintro (h | ⟨u, hu, rfl, h2⟩)
        · exact Or.inl h
        · rcases hu with rfl | hu
          · rw [hc] at h2; cases h2
          · exact Or.inr ⟨u, hu, rfl, h2⟩

theorem foldl_classify_repeated_mem (env : Env) (l : List String) (acc : TokenSets) (x : String) :
    x ∈ (l.foldl (classifyStep env) acc).repeated ↔
      x ∈ acc.repeated ∨ ∃ t ∈ l, condRep env (pyUpper t) = true ∧
        x ∈ (env.get_spdx_license_expr_info (pyUpper t)).licenses := by
  induction l generalizing acc with
  | nil => simp
  | cons t ts ih =>
    rw [List.foldl_cons, ih]
    rw [classifyStep_repeated]
    split
    · rename_i hc
      simp only [mem_sUpdate, List.mem_cons]
      constructor
      · rintro ((h | h) | ⟨u, hu, h1, h2⟩)
        · exact Or.inl h
        · exact Or.inr ⟨t, Or.inl rfl, hc, h⟩
        · exact Or.inr ⟨u, Or.inr hu, h1, h2⟩
      · rintro (h | ⟨u, hu, h1, h2⟩)
        · exact Or.inl (Or.inl h)
        · rcases hu with rfl | hu
          · exact Or.inl (Or.inr h2)
          · exact Or.inr ⟨u, hu, h1, h2⟩
    · rename_i hc
      rw [Bool.not_eq_true] at hc
      simp only [List.mem_cons]
      constructor
      · rintro (h | ⟨u, hu, h1, h2⟩)
        · exact Or.inl h
        · exact Or.inr ⟨u, Or.inr hu, h1, h2⟩
      · rintro (h | ⟨u, hu, h1, h2⟩)
        · exact Or.inl h
        · rcases hu with rfl | hu
          · rw [hc] at h1; cases h1
          · exact Or.inr ⟨u, hu, h1, h2⟩

theorem mem_classify_simple {env : Env} {l : List String} {x : String} :
    x ∈ (classifyTokens env l).simple ↔
      ∃ t ∈ l, pyUpper t = x ∧ condOr env x = false := by
  rw [classifyTokens, foldl_classify_simple_mem]
  simp

theorem mem_classify_ors {env : Env} {l : List String} {x : String} :
    x ∈ (classifyTokens env l).ors ↔
      ∃ t ∈ l, pyUpper t = x ∧ condOr env x = true := by
  rw [classifyTokens, foldl_classify_ors_mem]
  simp

theorem mem_classify_repeated {env : Env} {l : List String} {x : String} :
    x ∈ (classifyTokens env l).repeated ↔
      ∃ t ∈ l, condRep env (pyUpper t) = true ∧
        x ∈ (env.get_spdx_license_expr_info (pyUpper t)).licenses := by
  rw [classifyTokens, foldl_classify_repeated_mem]
  simp

theorem length_eq_of_nodup_memeq {l₁ l₂ : List String}
    (h₁ : l₁.Nodup) (h₂ : l₂.Nodup) (hm : ∀ x, x ∈ l₁ ↔ x ∈ l₂) :
    l₁.length = l₂.length :=
  ((List.perm_ext_iff_of_nodup h₁ h₂).mpr hm).length_eq

theorem nodup_classify (env : Env) (l : List String) :
    (classifyTokens env l).simple.Nodup ∧ (classifyTokens env l).ors.Nodup ∧
      (classifyTokens env l).repeated.Nodup := by
  rw [classifyTokens]
  generalize hacc : (⟨[], [], []⟩ : TokenSets) = acc
  have h0 : acc.simple.Nodup ∧ acc.ors.Nodup ∧ acc.repeated.Nodup := by
    rw [← hacc]; exact ⟨List.nodup_nil, List.nodup_nil, List.nodup_nil⟩
  clear hacc
  induction l generalizing acc with
  | nil => exact h0
  | cons t ts ih =>
    rw [List.foldl_cons]
    apply ih
    refine ⟨?_, ?_, ?_⟩
    · rw [classifyStep_simple]; split
      · exact h0.1
      · exact nodup_sAdd h0.1 _
    · rw [classifyStep_ors]; split
      · exact nodup_sAdd h0.2.1 _
      · exact h0.2.1
    · rw [classifyStep_repeated]; split
      · exact nodup_sUpdate h0.2.2 _
      · exact h0.2.2

/-- The joined item list depends only on which strings occur as upper-cased
tokens (the working sets are built with order-independent set operations). -/
theorem joinedItems_ext (env : Env) (L₁ L₂ : List String)
    (hm : ∀ x, (∃ t ∈ L₁, pyUpper t = x) ↔ (∃ t ∈ L₂, pyUpper t = x)) :
    joinedItems env L₁ = joinedItems env L₂ := by
  have hsim : ∀ x, x ∈ (classifyTokens env L₁).simple ↔ x ∈ (classifyTokens env L₂).simple := by
    intro x
    rw [mem_classify_simple, mem_classify_simple]
    constructor
    · rintro ⟨t, ht, rfl, hc⟩
      obtain ⟨t', ht', hpt'⟩ := (hm (pyUpper t)).mp ⟨t, ht, rfl⟩
      exact ⟨t', ht', hpt', hc⟩
    · rintro ⟨t, ht, rfl, hc⟩
      obtain ⟨t', ht', hpt'⟩ := (hm (pyUpper t)).mpr ⟨t, ht, rfl⟩
      exact ⟨t', ht', hpt', hc⟩
  have hors : ∀ x, x ∈ (classifyTokens env L₁).ors ↔ x ∈ (classifyTokens env L₂).ors := by
    intro x
    rw [mem_classify_ors, mem_classify_ors]
    constructor
    · rintro ⟨t, ht, rfl, hc⟩
      obtain ⟨t', ht', hpt'⟩ := (hm (pyUpper t)).mp ⟨t, ht, rfl⟩
      exact ⟨t', ht', hpt', hc⟩
    · rintro ⟨t, ht, rfl, hc⟩
      obtain ⟨t', ht', hpt'⟩ := (hm (pyUpper t)).mpr ⟨t, ht, rfl⟩
      exact ⟨t', ht', hpt', hc⟩
  have hrep : ∀ x, x ∈ (classifyTokens env L₁).repeated ↔ x ∈ (classifyTokens env L₂).repeated := by
    intro x
    rw [mem_classify_repeated, mem_classify_repeated]
    constructor
    · rintro ⟨t, ht, h1, h2⟩
      obtain ⟨t', ht', hpt'⟩ := (hm (pyUpper t)).mp ⟨t, ht, rfl⟩
      exact ⟨t', ht', by rwa [hpt'], by rwa [hpt']⟩
    · rintro ⟨t, ht, h1, h2⟩
      obtain ⟨t', ht', hpt'⟩ := (hm (pyUpper t)).mpr ⟨t, ht, rfl⟩
      exact ⟨t', ht', by rwa [hpt'], by rwa [hpt']⟩
  obtain ⟨hs₁, ho₁, hr₁⟩ := nodup_classify env L₁
  obtain ⟨hs₂, ho₂, hr₂⟩ := nodup_classify env L₂
  have hdm : ∀ x, x ∈ sDiff (classifyTokens env L₁).simple (classifyTokens env L₁).repeated ↔
      x ∈ sDiff (classifyTokens env L₂).simple (classifyTokens env L₂).repeated := by
    intro x
    rw [mem_sDiff, mem_sDiff, hsim x, hrep x]
  have hdn₁ := nodup_sDiff hs₁ (classifyTokens env L₁).repeated
  have hdn₂ := nodup_sDiff hs₂ (classifyTokens env L₂).repeated
  have hdl : (sDiff (classifyTokens env L₁).simple (classifyTokens env L₁).repeated).length =
      (sDiff (classifyTokens env L₂).simple (classifyTokens env L₂).repeated).length :=
    length_eq_of_nodup_memeq hdn₁ hdn₂ hdm
  have hol : (classifyTokens env L₁).ors.length = (classifyTokens env L₂).ors.length :=
    length_eq_of_nodup_memeq ho₁ ho₂ hors
  simp only [joinedItems]
  rw [hdl, hol]
  split
  · apply pySortStr_eq_of_perm_nodup
    · exact nodup_sUnion hdn₁ _
    · exact nodup_sUnion hdn₂ _
    · intro x
      rw [mem_sUnion, mem_sUnion, hdm x, mem_sOfList, mem_sOfList, List.mem_map, List.mem_map]
      constructor
      · rintro (h | ⟨y, hy, rfl⟩)
        · exact Or.inl h
        · exact Or.inr ⟨y, (hors y).mp hy, rfl⟩
      · rintro (h | ⟨y, hy, rfl⟩)
        · exact Or.inl h
        · exact Or.inr ⟨y, (hors y).mpr hy, rfl⟩
  · apply pySortStr_eq_of_perm_nodup
    · exact nodup_sUnion hdn₁ _
    · exact nodup_sUnion hdn₂ _
    · intro x
      rw [mem_sUnion, mem_sUnion, hdm x, hors x]

/-- The computed license expression depends only on the set of distinct
upper-cased raw tokens (and on whether the raw list is empty, which is
itself determined by that set). -/
theorem buildLicenseExpr_ext (env : Env) (l₁ l₂ : List String)
    (hm : ∀ x, (∃ t ∈ l₁, pyUpper t = x) ↔ (∃ t ∈ l₂, pyUpper t = x)) :
    buildLicenseExpr env l₁ = buildLicenseExpr env l₂ := by
  unfold buildLicenseExpr
  congr 1
  apply joinedItems_ext
  cases l₁ with
  | nil =>
    cases l₂ with
    | nil => intro x; exact Iff.rfl
    | cons t ts =>
      exact absurd ((hm (pyUpper t)).mpr ⟨t, by simp, rfl⟩) (by simp)
  | cons a as =>
    cases l₂ with
    | nil =>
      exact absurd ((hm (pyUpper a)).mp ⟨a, by simp, rfl⟩) (by simp)
    | cons t ts =>
      simpa [sentinelLicenses] using hm

theorem strAppend_right_inj {a b c : String} (h : a ++ b = a ++ c) : b = c := by
  have hd : a.data ++ b.data = a.data ++ c.data := by
    rw [← String.data_append, ← String.data_append, h]
  have h2 := List.append_inj_right hd rfl
  cases b; cases c
  exact congrArg String.mk h2

/-! ## Shape of the pipeline output -/

theorem pre_process_destruct {env : Env} {data d' : Data}
    (h : pre_process env data = some d') :
    ∃ dmid,
      licensesSortedPass (catalogPass env (detectorsPass (licenseExprPass env
        (sortFilesPass data)))) = some dmid ∧
      d' = relationshipsPass (packageInfoPass (spdxAssignPass (packagesSortedPass dmid))) := by
  unfold pre_process at h
  obtain ⟨dmid, h1, h2⟩ := Option.map_eq_some'.mp h
  exact ⟨dmid, h1, h2.symm⟩

theorem licensesSortedPass_fields {d dmid : Data} (h : licensesSortedPass d = some dmid) :
    dmid = { d with licenses_sorted := dmid.licenses_sorted } := by
  unfold licensesSortedPass at h
  split at h
  · cases h; rfl
  · cases h

/-- The output files are exactly `processFiles` of the input files. -/
theorem pre_process_files {env : Env} {data d' : Data}
    (h : pre_process env data = some d') :
    d'.files = processFiles env data.files := by
  obtain ⟨dmid, h1, rfl⟩ := pre_process_destruct h
  have hmid := licensesSortedPass_fields h1
  have hf : dmid.files =
      (sortFilesPass data).files.map
        (fun f => { f with license_expr := buildLicenseExpr env f.licenses }) := by
    rw [hmid]
    simp [catalogPass, detectorsPass, licenseExprPass]
  simp only [relationshipsPass, packageInfoPass, spdxAssignPass, packagesSortedPass]
  simp only [processFiles, sortFilesPass] at hf ⊢
  rw [hf]

/-- Every output file's `license_expr` is the built expression of its own
(unchanged) raw license list. -/
theorem processFiles_license_expr {env : Env} {files : List File} :
    ∀ f' ∈ processFiles env files, f'.license_expr = buildLicenseExpr env f'.licenses := by
  intro f' hf'
  unfold processFiles at hf'
  obtain ⟨p, hmem, rfl⟩ := List.mem_map.mp hf'
  have hp : p.2 ∈ (sortByKey (fun f => f.file_path) files).map
      (fun f => { f with license_expr := buildLicenseExpr env f.licenses }) :=
    List.snd_mem_of_mem_enumFrom hmem
  obtain ⟨f, _, hfp⟩ := List.mem_map.mp hp
  rw [← hfp]

/-- The output packages are the normalization of the spdx-assigned input
packages, with identifiers assigned in sorted-key order. -/
theorem pre_process_packages {env : Env} {data d' : Data}
    (h : pre_process env data = some d') :
    d'.packages =
      packageInfoPackages
        (spdxAssignPackages (pySortStr (dictKeys data.packages)) data.packages) := by
  obtain ⟨dmid, h1, rfl⟩ := pre_process_destruct h
  have hmid := licensesSortedPass_fields h1
  have hp : dmid.packages = data.packages := by
    rw [hmid]
    simp [catalogPass, detectorsPass, licenseExprPass, sortFilesPass]
  simp [relationshipsPass, packageInfoPass, spdxAssignPass, packagesSortedPass, hp]

/-! ## The license catalog -/

theorem dictContains_append {d e : List (String × α)} {k : String} :
    dictContains (d ++ e) k = (dictContains d k || dictContains e k) := by
  induction d with
  | nil => rfl
  | cons kv rest ih => simp [dictContains, ih, Bool.or_assoc]

theorem dictContains_singleton_self {k : String} {v : α} :
    dictContains [(k, v)] k = true := by
  simp [dictContains]

theorem dictGet_mem {d : List (String × α)} {k : String} {v : α}
    (h : dictGet d k = some v) : (k, v) ∈ d := by
  induction d with
  | nil => cases h
  | cons kv rest ih =>
    unfold dictGet at h
    split at h
    · rename_i hk
      obtain rfl := Option.some_inj.mp h
      obtain rfl : kv.1 = k := by simpa using hk
      exact List.mem_cons_self _ _
    · exact List.mem_cons_of_mem _ (ih h)

theorem catalogIdStep_mono {env : Env} {dl used : LicDict} {k id : String}
    (h : dictContains used k = true) :
    dictContains (catalogIdStep env dl used id) k = true := by
  unfold catalogIdStep
  split
  · exact h
  · rw [dictContains_append, h, Bool.true_or]

theorem catalogIdLoop_mono {env : Env} {dl : LicDict} {l : List String} {used : LicDict}
    {k : String} (h : dictContains used k = true) :
    dictContains (l.foldl (catalogIdStep env dl) used) k = true := by
  induction l generalizing used with
  | nil => exact h
  | cons id rest ih => exact ih (catalogIdStep_mono h)

theorem catalogIdStep_self {env : Env} {dl used : LicDict} {id : String} :
    dictContains (catalogIdStep env dl used id) id = true := by
  unfold catalogIdStep
  split
  · assumption
  · rw [dictContains_append, dictContains_singleton_self, Bool.or_true]

theorem catalogIdLoop_covers {env : Env} {dl : LicDict} :
    ∀ {l : List String} {used : LicDict} {id : String}, id ∈ l →
      dictContains (l.foldl (catalogIdStep env dl) used) id = true := by
  intro l
  induction l with
  | nil => intro _ _ h; cases h
  | cons x rest ih =>
    intro used id h
    rw [List.foldl_cons]
    rcases List.mem_cons.mp h with rfl | h'
    · exact catalogIdLoop_mono catalogIdStep_self
    · exact ih h'

theorem catalogStep_mono {env : Env} {dl used : LicDict} {e k : String}
    (h : dictContains used k = true) :
    dictContains (catalogStep env dl used e) k = true := by
  unfold catalogStep
  split
  · exact h
  · apply catalogIdLoop_mono
    split
    · rw [dictContains_append, h, Bool.true_or]
    · exact h

theorem catalogStep_self {env : Env} {dl used : LicDict} {e : String}
    (hres : (env.get_spdx_license_expr_info e).valid = true →
      (env.get_spdx_license_expr_info e).is_id_only = true →
      e ∈ (env.get_spdx_license_expr_info e).licenses) :
    dictContains (catalogStep env dl used e) e = true := by
  unfold catalogStep
  split
  · assumption
  · by_cases hb : (!(env.get_spdx_license_expr_info e).valid ||
        !(env.get_spdx_license_expr_info e).is_id_only) = true
    · simp only [hb, if_true]
      apply catalogIdLoop_mono
      rw [dictContains_append, dictContains_singleton_self, Bool.or_true]
    · have hb2 : (!(env.get_spdx_license_expr_info e).valid ||
          !(env.get_spdx_license_expr_info e).is_id_only) = false :=
        Bool.eq_false_iff.mpr hb
      rcases Bool.or_eq_false_iff.mp hb2 with ⟨hv, hi⟩
      have hvalid : (env.get_spdx_license_expr_info e).valid = true := by simpa using hv
      have hido : (env.get_spdx_license_expr_info e).is_id_only = true := by simpa using hi
      simp only [hb2, Bool.false_eq_true, if_false]
      exact catalogIdLoop_covers (hres hvalid hido)

theorem catalogFold_mono {env : Env} {dl : LicDict} {exprs : List String} {used : LicDict}
    {k : String} (h : dictContains used k = true) :
    dictContains (exprs.foldl (catalogStep env dl) used) k = true := by
  induction exprs generalizing used with
  | nil => exact h
  | cons e rest ih => exact ih (catalogStep_mono h)

/-- Every processed expression string ends up as a catalog key (assuming the
resolver lists a valid id-only expression among its own constituents). -/
theorem catalogFold_covers {env : Env} {dl : LicDict}
    (hres : ∀ s, (env.get_spdx_license_expr_info s).valid = true →
      (env.get_spdx_license_expr_info s).is_id_only = true →
      s ∈ (env.get_spdx_license_expr_info s).licenses) :
    ∀ {exprs : List String} {used : LicDict} {e : String}, e ∈ exprs →
      dictContains (exprs.foldl (catalogStep env dl) used) e = true := by
  intro exprs
  induction exprs with
  | nil => intro _ _ h; cases h
  | cons x rest ih =>
    intro used e h
    rw [List.foldl_cons]
    rcases List.mem_cons.mp h with rfl | h'
    · exact catalogFold_mono (catalogStep_self (hres e))
    · exact ih h'

theorem catalogIdStep_keys {env : Env} {dl used : LicDict} {id k : String}
    (h : dictContains (catalogIdStep env dl used id) k = true) :
    dictContains used k = true ∨ k = id := by
  unfold catalogIdStep at h
  split at h
  · exact Or.inl h
  · rw [dictContains_append] at h
    rcases Bool.or_eq_true _ _ |>.mp h with h' | h'
    · exact Or.inl h'
    · simp [dictContains] at h'
      exact Or.inr h'.symm

theorem catalogIdLoop_keys {env : Env} {dl : LicDict} :
    ∀ {l : List String} {used : LicDict} {k : String},
      dictContains (l.foldl (catalogIdStep env dl) used) k = true →
      dictContains used k = true ∨ k ∈ l := by
  intro l
  induction l with
  | nil => intro _ _ h; exact Or.inl h
  | cons id rest ih =>
    intro used k h
    rcases ih h with h' | h'
    · rcases catalogIdStep_keys h' with h'' | rfl
      · exact Or.inl h''
      · exact Or.inr (List.mem_cons_self _ _)
    · exact Or.inr (List.mem_cons_of_mem _ h')

theorem catalogStep_keys {env : Env} {dl used : LicDict} {e k : String}
    (h : dictContains (catalogStep env dl used e) k = true) :
    dictContains used k = true ∨ k = e ∨
      k ∈ (env.get_spdx_license_expr_info e).licenses := by
  unfold catalogStep at h
  split at h
  · exact Or.inl h
  · rcases catalogIdLoop_keys h with h' | h'
    · split at h'
      · rw [dictContains_append] at h'
        rcases Bool.or_eq_true _ _ |>.mp h' with h'' | h''
        · exact Or.inl h''
        · simp [dictContains] at h''
          exact Or.inr (Or.inl h''.symm)
      · exact Or.inl h'
    · exact Or.inr (Or.inr h')

theorem catalogFold_keys {env : Env} {dl : LicDict} :
    ∀ {exprs : List String} {used : LicDict} {k : String},
      dictContains (exprs.foldl (catalogStep env dl) used) k = true →
      dictContains used k = true ∨
        ∃ e ∈ exprs, k = e ∨ k ∈ (env.get_spdx_license_expr_info e).licenses := by
  intro exprs
  induction exprs with
  | nil => intro _ _ h; exact Or.inl h
  | cons e rest ih =>
    intro used k h
    rcases ih h with h' | ⟨e', he', h''⟩
    · rcases catalogStep_keys h' with h'' | h''
      · exact Or.inl h''
      · exact Or.inr ⟨e, List.mem_cons_self _ _, h''⟩
    · exact Or.inr ⟨e', List.mem_cons_of_mem _ he', h''⟩

/-- Under a catalog-input without compound entries, `resolveId` never
produces a compound entry. -/
theorem resolveId_not_expr {env : Env} {dl : LicDict}
    (hinp : ∀ k e, (k, some (LicEntry.expr e)) ∈ dl → False) (id : String) :
    ∀ ex, resolveId env dl id ≠ some (LicEntry.expr ex) := by
  intro ex hcon
  unfold resolveId at hcon
  split at hcon
  · cases hget : env.get_license id with
    | none => rw [hget] at hcon; cases hcon
    | some l => rw [hget] at hcon; cases hcon
  · split at hcon
    · cases hget : dictGet dl id with
      | none => rw [hget] at hcon; cases hcon
      | some v =>
        rw [hget] at hcon
        simp only [Option.getD_some] at hcon
        exact hinp id ex (hcon ▸ dictGet_mem hget)
    · split at hcon
      · cases hcon
      · cases hcon

theorem catalogIdLoop_entries {env : Env} {dl : LicDict} :
    ∀ {l : List String} {used : LicDict} {kv : String × Option LicEntry},
      kv ∈ l.foldl (catalogIdStep env dl) used →
      kv ∈ used ∨ ∃ id, kv = (id, resolveId env dl id) := by
  intro l
  induction l with
  | nil => intro _ _ h; exact Or.inl h
  | cons id rest ih =>
    intro used kv h
    rcases ih h with h' | h'
    · unfold catalogIdStep at h'
      split at h'
      · exact Or.inl h'
      · rcases List.mem_append.mp h' with h'' | h''
        · exact Or.inl h''
        · exact Or.inr ⟨id, List.mem_singleton.mp h''⟩
    · exact Or.inr h'

theorem catalogStep_closed {env : Env} {dl used : LicDict} {e : String}
    (hinp : ∀ k ex, (k, some (LicEntry.expr ex)) ∈ dl → False)
    (hc : catClosed used) : catClosed (catalogStep env dl used e) := by
  intro k ex hmem id hid
  by_cases h0 : dictContains used e = true
  · simp only [catalogStep, h0, if_true] at hmem ⊢
    exact hc k ex hmem id hid
  · simp only [catalogStep, h0, Bool.false_eq_true, if_false] at hmem ⊢
    rcases catalogIdLoop_entries hmem with hin | ⟨id', heq⟩
    · by_cases hb : (!(env.get_spdx_license_expr_info e).valid ||
          !(env.get_spdx_license_expr_info e).is_id_only) = true
      · simp only [hb, if_true] at hin ⊢
        rcases List.mem_append.mp hin with hu | hnew
        · exact catalogIdLoop_mono
            (by rw [dictContains_append, hc k ex hu id hid, Bool.true_or])
        · obtain ⟨hke, hee⟩ := Prod.mk.injEq _ _ _ _ ▸ List.mem_singleton.mp hnew
          obtain rfl : ex = mkLicenseExprEntry env e (env.get_spdx_license_expr_info e) := by
            injection hee with h1
            injection h1
          have : id ∈ (env.get_spdx_license_expr_info e).licenses := by
            have := hid
            simp only [mkLicenseExprEntry] at this
            exact (sortByKey_perm _ _).mem_iff.mp this
          exact catalogIdLoop_covers this
      · simp only [hb, Bool.false_eq_true, if_false] at hin ⊢
        exact catalogIdLoop_mono (hc k ex hin id hid)
    · exfalso
      have : resolveId env dl id' = some (LicEntry.expr ex) := by
        injection heq with h1 h2
        exact h2.symm
      exact resolveId_not_expr hinp id' ex this

theorem catalogFold_closed {env : Env} {dl : LicDict}
    (hinp : ∀ k ex, (k, some (LicEntry.expr ex)) ∈ dl → False) :
    ∀ {exprs : List String} {used : LicDict}, catClosed used →
      catClosed (exprs.foldl (catalogStep env dl) used) := by
  intro exprs
  induction exprs with
  | nil => intro _ hc; exact hc
  | cons e rest ih => intro used hc; exact ih (catalogStep_closed hinp hc)

/-- The output catalog is the fold of `catalogStep` over the output files'
expression strings, seeded from the input catalog. -/
theorem pre_process_licenses {env : Env} {data d' : Data}
    (h : pre_process env data = some d') :
    d'.licenses =
      (d'.files.map (fun f => f.license_expr)).foldl
        (catalogStep env data.licenses) [] := by
  obtain ⟨dmid, h1, rfl⟩ := pre_process_destruct h
  have hmid := licensesSortedPass_fields h1
  have hfiles : dmid.files =
      (sortFilesPass data).files.map
        (fun f => { f with license_expr := buildLicenseExpr env f.licenses }) := by
    rw [hmid]
    simp [catalogPass, detectorsPass, licenseExprPass]
  have hlic : dmid.licenses =
      dmid.files.foldl (fun used f => catalogStep env data.licenses used f.license_expr) [] := by
    rw [hmid]
    simp [catalogPass, detectorsPass, licenseExprPass, sortFilesPass]
  have hout : (relationshipsPass (packageInfoPass (spdxAssignPass
      (packagesSortedPass dmid)))).licenses = dmid.licenses := by
    simp [relationshipsPass, packageInfoPass, spdxAssignPass, packagesSortedPass]
  have houtf : (relationshipsPass (packageInfoPass (spdxAssignPass
      (packagesSortedPass dmid)))).files.map (fun f => f.license_expr) =
      dmid.files.map (fun f => f.license_expr) := by
    simp only [relationshipsPass, packageInfoPass, spdxAssignPass, packagesSortedPass]
    rw [List.map_map]
    show (dmid.files.enum).map
      ((fun f => f.license_expr) ∘ fun p => { p.2 with spdx_id := "SPDXRef-File-" ++ toString (p.1 + 1) }) = _
    rw [show ((fun f : File => f.license_expr) ∘
        fun p : Nat × File => { p.2 with spdx_id := "SPDXRef-File-" ++ toString (p.1 + 1) }) =
        ((fun f : File => f.license_expr) ∘ Prod.snd) from rfl]
    rw [← List.map_map, List.enum_map_snd]
  rw [hout, houtf, hlic, List.foldl_map]

/-- The concrete resolver `env0` lists every valid id-only expression among
its own constituents. -/
theorem env0_resolver_sane :
    ∀ s, (env0.get_spdx_license_expr_info s).valid = true →
      (env0.get_spdx_license_expr_info s).is_id_only = true →
      s ∈ (env0.get_spdx_license_expr_info s).licenses := by
  intro s h1 h2
  by_cases hc1 : s = "A OR B"
  · simp only [env0, hc1, if_true] at h2
    cases h2
  · by_cases hc2 : (s = "A" || s = "B" || s = "MIT" || s = "GPL-2.0" || s = "Apache-2.0"
        || s = "APACHE-2.0") = true
    · simp only [env0, hc1, if_false, hc2, if_true]
      exact List.mem_singleton.mpr rfl
    · simp only [env0, hc1, if_false, hc2, Bool.false_eq_true] at h1

/-! ## More dictionary lemmas -/

theorem dictKeys_dictUpdate {d : List (String × α)} {k : String} {f : α → α} :
    dictKeys (dictUpdate d k f) = dictKeys d := by
  induction d with
  | nil => rfl
  | cons kv rest ih =>
    simp only [dictUpdate, dictKeys, List.map_cons]
    have ih' : List.map (fun kv : String × α => kv.1) (dictUpdate rest k f) =
        List.map (fun kv : String × α => kv.1) rest := ih
    rw [ih']
    by_cases h : kv.1 = k
    · have hb : (kv.1 == k) = true := by simpa using h
      simp [hb]
    · have hb : (kv.1 == k) = false := by simpa using h
      simp [hb]

theorem dictGet_dictUpdate {d : List (String × α)} {k0 k : String} {f : α → α} :
    dictGet (dictUpdate d k0 f) k =
      if k = k0 then (dictGet d k).map f else dictGet d k := by
  induction d with
  | nil => simp [dictUpdate, dictGet]
  | cons kv rest ih =>
    obtain ⟨k1, v1⟩ := kv
    by_cases h0 : k1 = k0
    · subst h0
      simp only [dictUpdate, beq_self_eq_true, if_true, dictGet]
      by_cases hk : k1 = k
      · subst hk
        simp [ih]
      · have hbk : (k1 == k) = false := by simpa using hk
        have hkn : ¬ (k = k1) := fun hc => hk hc.symm
        simp [hbk, hkn, ih]
    · have hb0 : (k1 == k0) = false := by simpa using h0
      simp only [dictUpdate, hb0, Bool.false_eq_true, if_false, dictGet]
      by_cases hk : k1 = k
      · subst hk
        simp [ih, h0]
      · have hbk : (k1 == k) = false := by simpa using hk
        simp [hbk, ih]

theorem dictContains_iff_mem_keys {d : List (String × α)} {k : String} :
    dictContains d k = true ↔ k ∈ dictKeys d := by
  induction d with
  | nil => simp [dictContains, dictKeys]
  | cons kv rest ih =>
    simp only [dictContains, dictKeys, List.map_cons, List.mem_cons, Bool.or_eq_true, ih,
      beq_iff_eq]
    rw [@eq_comm _ kv.1 _]

theorem dictContains_iff_get {d : List (String × α)} {k : String} :
    dictContains d k = true ↔ ∃ v, dictGet d k = some v := by
  induction d with
  | nil => simp [dictContains, dictGet]
  | cons kv rest ih =>
    simp only [dictContains, dictGet, Bool.or_eq_true]
    by_cases h : kv.1 = k
    · simp [h]
    · have h1 : (kv.1 == k) = false := by simpa using h
      simp [h1, ih]

/-! ## Package normalization preserves assigned identifiers -/

theorem packageInfoStep_spdx (st : PkgState) (pid k : String) :
    (dictGet (packageInfoStep st pid).pkgs k).map (·.spdx_id) =
      (dictGet st.pkgs k).map (·.spdx_id) := by
  unfold packageInfoStep
  cases hget : dictGet st.pkgs pid with
  | none => rfl
  | some p0 =>
    cases hurl : p0.url with
    | none =>
      simp only [hurl]
      rw [dictGet_dictUpdate]
      split
      · rename_i hk
        subst hk
        rw [hget]
        rfl
      · rfl
    | some url =>
      simp only [hurl]
      cases hname : p0.name with
      | some nm0 =>
        simp only [Option.isNone_some, Bool.false_eq_true, if_false]
        cases hmap : dictGet st.nameMap ((some nm0).getD "") with
        | none =>
          simp only [hmap]
          rw [dictGet_dictUpdate]
          split
          · rename_i hk
            subst hk
            rw [hget]
            split <;> rfl
          · rfl
        | some epid =>
          simp only [hmap]
          cases hep : dictGet st.pkgs epid with
          | none =>
            simp only [hep]
            rw [dictGet_dictUpdate]
            split
            · rename_i hk
              subst hk
              rw [hget]
              split <;> rfl
            · rfl
          | some ep =>
            simp only [hep]
            rw [dictGet_dictUpdate, dictGet_dictUpdate]
            by_cases hk : k = pid
            · subst hk
              by_cases hke : k = epid
              · subst hke
                have hpe : ep = p0 := by
                  rw [hget] at hep
                  exact (Option.some_inj.mp hep).symm
                subst hpe
                simp [hep]
                split <;> rfl
              · simp [if_neg hke, hget]
                split <;> rfl
            · by_cases hke : k = epid
              · subst hke
                simp [if_neg hk, hep]
              · simp [if_neg hk, if_neg hke]
      | none =>
        simp only [Option.isNone_none, if_true]
        cases hgh : githubName url with
        | some gn =>
          simp only [Option.isNone_some, Bool.false_eq_true, if_false]
          cases hmap : dictGet st.nameMap ((some gn).getD "") with
          | none =>
            simp only [hmap]
            rw [dictGet_dictUpdate]
            split
            · rename_i hk
              subst hk
              rw [hget]
              split <;> rfl
            · rfl
          | some epid =>
            simp only [hmap]
            cases hep : dictGet st.pkgs epid with
            | none =>
              simp only [hep]
              rw [dictGet_dictUpdate]
              split
              · rename_i hk
                subst hk
                rw [hget]
                split <;> rfl
              · rfl
            | some ep =>
              simp only [hep]
              rw [dictGet_dictUpdate, dictGet_dictUpdate]
              by_cases hk : k = pid
              · subst hk
                by_cases hke : k = epid
                · subst hke
                  have hpe : ep = p0 := by
                    rw [hget] at hep
                    exact (Option.some_inj.mp hep).symm
                  subst hpe
                  simp [hep]
                  split <;> rfl
                · simp [if_neg hke, hget]
                  split <;> rfl
              · by_cases hke : k = epid
                · subst hke
                  simp [if_neg hk, hep]
                · simp [if_neg hk, if_neg hke]
        | none =>
          simp only [Option.isNone_none, if_true, Option.getD_some]
          cases hmap : dictGet st.nameMap (pyOrS p0.id (pyOrS url "NoneName")) with
          | none =>
            simp only [hmap]
            rw [dictGet_dictUpdate]
            split
            · rename_i hk
              subst hk
              rw [hget]
              split <;> rfl
            · rfl
          | some epid =>
            simp only [hmap]
            cases hep : dictGet st.pkgs epid with
            | none =>
              simp only [hep]
              rw [dictGet_dictUpdate]
              split
              · rename_i hk
                subst hk
                rw [hget]
                split <;> rfl
              · rfl
            | some ep =>
              simp only [hep]
              rw [dictGet_dictUpdate, dictGet_dictUpdate]
              by_cases hk : k = pid
              · subst hk
                by_cases hke : k = epid
                · subst hke
                  have hpe : ep = p0 := by
                    rw [hget] at hep
                    exact (Option.some_inj.mp hep).symm
                  subst hpe
                  simp [hep]
                  split <;> rfl
                · simp [if_neg hke, hget]
                  split <;> rfl
              · by_cases hke : k = epid
                · subst hke
                  simp [if_neg hk, hep]
                · simp [if_neg hk, if_neg hke]

theorem packageInfoFold_spdx (pids : List String) (st : PkgState) (k : String) :
    (dictGet (pids.foldl packageInfoStep st).pkgs k).map (·.spdx_id) =
      (dictGet st.pkgs k).map (·.spdx_id) := by
  induction pids generalizing st with
  | nil => rfl
  | cons pid rest ih =>
    rw [List.foldl_cons, ih, packageInfoStep_spdx]

theorem packageInfoPackages_spdx (pkgs : List (String × Package)) (k : String) :
    (dictGet (packageInfoPackages pkgs) k).map (·.spdx_id) =
      (dictGet pkgs k).map (·.spdx_id) := by
  unfold packageInfoPackages
  exact packageInfoFold_spdx (dictKeys pkgs) ⟨pkgs, []⟩ k

/-! ## The identifier assignment -/

theorem spdxAssignFold_untouched {sorted : List String} {pkgs : List (String × Package)}
    {c : Nat} {pid : String} (h : pid ∉ sorted) :
    dictGet ((sorted.foldl spdxAssignStep (pkgs, c)).1) pid = dictGet pkgs pid := by
  induction sorted generalizing pkgs c with
  | nil => rfl
  | cons x rest ih =>
    rw [List.foldl_cons]
    have hx : pid ∉ rest := fun hc => h (List.mem_cons_of_mem _ hc)
    rw [show spdxAssignStep (pkgs, c) x =
      (dictUpdate pkgs x (fun p =>
        { p with spdx_id := some ("SPDXRef-Package-" ++ toString c),
                 external_refs := some (p.external_refs.getD []) }), c + 1) from rfl]
    rw [ih hx, dictGet_dictUpdate]
    have : ¬ pid = x := fun hc => h (hc ▸ List.mem_cons_self _ _)
    rw [if_neg this]

theorem spdxAssignFold_get {sorted : List String} (hnd : sorted.Nodup) :
    ∀ {pkgs : List (String × Package)} {c : Nat} {i : Nat} (hi : i < sorted.length),
      dictGet ((sorted.foldl spdxAssignStep (pkgs, c)).1) (sorted.get ⟨i, hi⟩) =
        (dictGet pkgs (sorted.get ⟨i, hi⟩)).map (fun p =>
          { p with spdx_id := some ("SPDXRef-Package-" ++ toString (c + i)),
                   external_refs := some (p.external_refs.getD []) }) := by
  induction sorted with
  | nil => intro _ _ i hi; cases hi
  | cons x rest ih =>
    intro pkgs c i hi
    obtain ⟨hx, hrest⟩ := List.nodup_cons.mp hnd
    cases i with
    | zero =>
      rw [List.foldl_cons]
      rw [show spdxAssignStep (pkgs, c) x =
        (dictUpdate pkgs x (fun p =>
          { p with spdx_id := some ("SPDXRef-Package-" ++ toString c),
                   external_refs := some (p.external_refs.getD []) }), c + 1) from rfl]
      show dictGet _ x = _
      rw [spdxAssignFold_untouched hx, dictGet_dictUpdate, if_pos rfl]
      rw [Nat.add_zero]
      rfl
    | succ j =>
      rw [List.foldl_cons]
      rw [show spdxAssignStep (pkgs, c) x =
        (dictUpdate pkgs x (fun p =>
          { p with spdx_id := some ("SPDXRef-Package-" ++ toString c),
                   external_refs := some (p.external_refs.getD []) }), c + 1) from rfl]
      have hj : j < rest.length := Nat.lt_of_succ_lt_succ hi
      show dictGet _ (rest.get ⟨j, hj⟩) = _
      rw [ih hrest hj, dictGet_dictUpdate]
      have hne : ¬ rest.get ⟨j, hj⟩ = x := by
        intro hc
        exact hx (hc ▸ List.get_mem rest j hj)
      rw [if_neg hne]
      have harith : c + 1 + j = c + (j + 1) := by omega
      rw [harith]
      rfl

/-! ## The package-to-files grouping -/

theorem dictGet_append {d1 d2 : List (String × α)} {k : String} :
    dictGet (d1 ++ d2) k =
      match dictGet d1 k with
      | some v => some v
      | none => dictGet d2 k := by
  induction d1 with
  | nil => simp [dictGet]
  | cons kv rest ih =>
    simp only [List.cons_append, dictGet]
    split
    · rfl
    · exact ih

theorem dictGet_none_of_not_contains {d : List (String × α)} {k : String}
    (h : dictContains d k = false) : dictGet d k = none := by
  cases hget : dictGet d k with
  | none => rfl
  | some v =>
    rw [dictContains_iff_get.mpr ⟨v, hget⟩] at h
    cases h

theorem p2fAdd_get_self {m : List (String × List String)} {pid fid : String} :
    dictGet (p2fAdd m pid fid) pid = some ((dictGet m pid).getD [] ++ [fid]) := by
  unfold p2fAdd
  by_cases hc : dictContains m pid = true
  · obtain ⟨v, hv⟩ := dictContains_iff_get.mp hc
    rw [if_pos hc, dictGet_dictUpdate, if_pos rfl, hv]
    rfl
  · have hc' : dictContains m pid = false := by simpa using hc
    rw [if_neg (by simp [hc']), dictGet_append, dictGet_none_of_not_contains hc']
    simp [dictGet]

theorem p2fAdd_get_ne {m : List (String × List String)} {pid fid k : String} (h : k ≠ pid) :
    dictGet (p2fAdd m pid fid) k = dictGet m k := by
  unfold p2fAdd
  split
  · rw [dictGet_dictUpdate, if_neg h]
  · rw [dictGet_append]
    cases hget : dictGet m k with
    | some v => rfl
    | none =>
      have : (pid == k) = false := by simpa using fun hc => h hc.symm
      simp [dictGet, this]

theorem p2fFold_get :
    ∀ (files : List File) (m : List (String × List String)) (pid : String),
      dictGet (files.foldl (fun m f => p2fAdd m f.package f.spdx_id) m) pid =
        match dictGet m pid with
        | some v => some (v ++ (files.filter (fun f => f.package == pid)).map (·.spdx_id))
        | none =>
          if (files.filter (fun f => f.package == pid)).isEmpty then none
          else some ((files.filter (fun f => f.package == pid)).map (·.spdx_id)) := by
  intro files
  induction files with
  | nil =>
    intro m pid
    cases hget : dictGet m pid <;> simp [List.filter, hget]
  | cons f fs ih =>
    intro m pid
    rw [List.foldl_cons]
    by_cases hp : (f.package == pid) = true
    · have hpe : f.package = pid := by simpa using hp
      rw [ih, hpe, p2fAdd_get_self]
      simp only [List.filter, hp, List.map_cons]
      cases hget : dictGet m pid with
      | some v => simp
      | none => simp
    · have hp' : (f.package == pid) = false := by simpa using hp
      have hne : pid ≠ f.package := by
        intro hc
        rw [hc] at hp'
        simp at hp'
      rw [ih, p2fAdd_get_ne hne]
      simp only [List.filter, hp']

theorem p2fOf_get (files : List File) (pid : String) :
    dictGet (p2fOf files) pid =
      if (files.filter (fun f => f.package == pid)).isEmpty then none
      else some ((files.filter (fun f => f.package == pid)).map (·.spdx_id)) := by
  unfold p2fOf
  rw [p2fFold_get]
  rfl

theorem p2fOf_contains {files : List File} {pid : String} :
    dictContains (p2fOf files) pid = true ↔ ∃ f ∈ files, f.package = pid := by
  rw [dictContains_iff_get]
  constructor
  · rintro ⟨v, hv⟩
    rw [p2fOf_get] at hv
    split at hv
    · cases hv
    · rename_i hne
      have hnil : files.filter (fun f => f.package == pid) ≠ [] := by
        simpa using hne
      obtain ⟨f, hf⟩ := List.exists_mem_of_ne_nil _ hnil
      obtain ⟨hfm, hfp⟩ := List.mem_filter.mp hf
      exact ⟨f, hfm, by simpa using hfp⟩
  · rintro ⟨f, hf, hfp⟩
    rw [p2fOf_get]
    split
    · rename_i hemp
      exfalso
      have : f ∈ files.filter (fun f => f.package == pid) :=
        List.mem_filter.mpr ⟨hf, by simpa using hfp⟩
      rw [List.isEmpty_iff] at hemp
      rw [hemp] at this
      cases this
    · exact ⟨_, rfl⟩

/-! ## Counting the fresh relationship edges -/

theorem describesOf_count (pkgs : List (String × Package)) (sorted : List String)
    (p2f : List (String × List String)) (r : Relationship) :
    (describesOf pkgs sorted p2f).count r =
      sorted.countP (fun pid =>
        match dictGet pkgs pid with
        | none => false
        | some pkg =>
          (optTruthy pkg.spdx_id && dictContains p2f pid) &&
            ((⟨"SPDXRef-DOCUMENT", "DESCRIBES", pkg.spdx_id.getD ""⟩ : Relationship) == r)) := by
  have go : ∀ (l : List String) (acc : List Relationship),
      (l.foldl
        (fun acc pid =>
          match dictGet pkgs pid with
          | none => acc
          | some pkg =>
            if optTruthy pkg.spdx_id && dictContains p2f pid then
              acc ++ [{ spdx_id := "SPDXRef-DOCUMENT", relationship_type := "DESCRIBES",
                        related_spdx_id := pkg.spdx_id.getD "" }]
            else acc) acc).count r =
      acc.count r + l.countP (fun pid =>
        match dictGet pkgs pid with
        | none => false
        | some pkg =>
          (optTruthy pkg.spdx_id && dictContains p2f pid) &&
            ((⟨"SPDXRef-DOCUMENT", "DESCRIBES", pkg.spdx_id.getD ""⟩ : Relationship) == r)) := by
    intro l
    induction l with
    | nil => intro acc; simp
    | cons pid rest ih =>
      intro acc
      rw [List.foldl_cons, List.countP_cons, ih]
      cases hget : dictGet pkgs pid with
      | none => simp
      | some pkg =>
        dsimp only
        by_cases hc : (optTruthy pkg.spdx_id && dictContains p2f pid) = true
        · rw [if_pos hc]
          rw [List.count_append, List.count_singleton]
          simp only [hc, Bool.true_and]
          omega

        · rw [if_neg hc]
          have hc' : (optTruthy pkg.spdx_id && dictContains p2f pid) = false := by
            simpa using hc
          simp only [hc', Bool.false_and, Bool.false_eq_true, if_false]
          omega
  have h0 := go sorted []
  simpa [describesOf] using h0

theorem containsOf_count (pkgs : List (String × Package))
    (p2f : List (String × List String)) (r : Relationship) :
    (containsOf pkgs p2f).count r =
      (p2f.map (fun kv =>
        match dictGet pkgs kv.1 with
        | none => 0
        | some pkg =>
          if optTruthy pkg.spdx_id then
            (kv.2.map (fun fid =>
              ({ spdx_id := pkg.spdx_id.getD "", relationship_type := "CONTAINS",
                 related_spdx_id := fid } : Relationship))).count r
          else 0)).sum := by
  have go : ∀ (l : List (String × List String)) (acc : List Relationship),
      (l.foldl
        (fun acc kv =>
          match dictGet pkgs kv.1 with
          | none => acc
          | some pkg =>
            if optTruthy pkg.spdx_id then
              acc ++ kv.2.map (fun fid =>
                { spdx_id := pkg.spdx_id.getD "", relationship_type := "CONTAINS",
                  related_spdx_id := fid })
            else acc) acc).count r =
      acc.count r + (l.map (fun kv =>
        match dictGet pkgs kv.1 with
        | none => 0
        | some pkg =>
          if optTruthy pkg.spdx_id then
            (kv.2.map (fun fid =>
              ({ spdx_id := pkg.spdx_id.getD "", relationship_type := "CONTAINS",
                 related_spdx_id := fid } : Relationship))).count r
          else 0)).sum := by
    intro l
    induction l with
    | nil => intro acc; simp
    | cons kv rest ih =>
      intro acc
      rw [List.foldl_cons, List.map_cons, List.sum_cons, ih]
      cases hget : dictGet pkgs kv.1 with
      | none => simp
      | some pkg =>
        dsimp only
        by_cases hc : optTruthy pkg.spdx_id = true
        · rw [if_pos hc, if_pos hc, List.count_append]
          omega
        · rw [if_neg hc, if_neg hc]
          omega
  have h0 := go p2f []
  simpa [containsOf] using h0

theorem describesOf_mem {pkgs : List (String × Package)} {sorted : List String}
    {p2f : List (String × List String)} {r : Relationship}
    (h : r ∈ describesOf pkgs sorted p2f) :
    ∃ pid ∈ sorted, ∃ pkg, dictGet pkgs pid = some pkg ∧
      (optTruthy pkg.spdx_id && dictContains p2f pid) = true ∧
      r = ⟨"SPDXRef-DOCUMENT", "DESCRIBES", pkg.spdx_id.getD ""⟩ := by
  have go : ∀ (l : List String) (acc : List Relationship),
      r ∈ (l.foldl
        (fun acc pid =>
          match dictGet pkgs pid with
          | none => acc
          | some pkg =>
            if optTruthy pkg.spdx_id && dictContains p2f pid then
              acc ++ [{ spdx_id := "SPDXRef-DOCUMENT", relationship_type := "DESCRIBES",
                        related_spdx_id := pkg.spdx_id.getD "" }]
            else acc) acc) →
      r ∈ acc ∨ ∃ pid ∈ l, ∃ pkg, dictGet pkgs pid = some pkg ∧
        (optTruthy pkg.spdx_id && dictContains p2f pid) = true ∧
        r = ⟨"SPDXRef-DOCUMENT", "DESCRIBES", pkg.spdx_id.getD ""⟩ := by
    intro l
    induction l with
    | nil => intro acc h'; exact Or.inl h'
    | cons pid rest ih =>
      intro acc h'
      rw [List.foldl_cons] at h'
      rcases ih _ h' with h'' | ⟨pid', hmem, pkg, hget, hcond, hr⟩
      · cases hget : dictGet pkgs pid with
        | none =>
          rw [hget] at h''
          exact Or.inl h''
        | some pkg =>
          rw [hget] at h''
          dsimp only at h''
          by_cases hc : (optTruthy pkg.spdx_id && dictContains p2f pid) = true
          · rw [if_pos hc] at h''
            rcases List.mem_append.mp h'' with h3 | h3
            · exact Or.inl h3
            · exact Or.inr ⟨pid, List.mem_cons_self _ _, pkg, hget, hc,
                List.mem_singleton.mp h3⟩
          · rw [if_neg hc] at h''
            exact Or.inl h''
      · exact Or.inr ⟨pid', List.mem_cons_of_mem _ hmem, pkg, hget, hcond, hr⟩
  rcases go sorted [] h with h' | h'
  · cases h'
  · exact h'

theorem containsOf_mem {pkgs : List (String × Package)}
    {p2f : List (String × List String)} {r : Relationship}
    (h : r ∈ containsOf pkgs p2f) :
    ∃ kv ∈ p2f, ∃ pkg, dictGet pkgs kv.1 = some pkg ∧ optTruthy pkg.spdx_id = true ∧
      ∃ fid ∈ kv.2, r = ⟨pkg.spdx_id.getD "", "CONTAINS", fid⟩ := by
  have go : ∀ (l : List (String × List String)) (acc : List Relationship),
      r ∈ (l.foldl
        (fun acc kv =>
          match dictGet pkgs kv.1 with
          | none => acc
          | some pkg =>
            if optTruthy pkg.spdx_id then
              acc ++ kv.2.map (fun fid =>
                { spdx_id := pkg.spdx_id.getD "", relationship_type := "CONTAINS",
                  related_spdx_id := fid })
            else acc) acc) →
      r ∈ acc ∨ ∃ kv ∈ l, ∃ pkg, dictGet pkgs kv.1 = some pkg ∧
        optTruthy pkg.spdx_id = true ∧ ∃ fid ∈ kv.2,
          r = ⟨pkg.spdx_id.getD "", "CONTAINS", fid⟩ := by
    intro l
    induction l with
    | nil => intro acc h'; exact Or.inl h'
    | cons kv rest ih =>
      intro acc h'
      rw [List.foldl_cons] at h'
      rcases ih _ h' with h'' | ⟨kv', hmem, pkg, hget, hcond, hr⟩
      · cases hget : dictGet pkgs kv.1 with
        | none =>
          rw [hget] at h''
          exact Or.inl h''
        | some pkg =>
          rw [hget] at h''
          dsimp only at h''
          by_cases hc : optTruthy pkg.spdx_id = true
          · rw [if_pos hc] at h''
            rcases List.mem_append.mp h'' with h3 | h3
            · exact Or.inl h3
            · obtain ⟨fid, hfid, hr⟩ := List.mem_map.mp h3
              exact Or.inr ⟨kv, List.mem_cons_self _ _, pkg, hget, hc, fid, hfid, hr.symm⟩
          · rw [if_neg hc] at h''
            exact Or.inl h''
      · exact Or.inr ⟨kv', List.mem_cons_of_mem _ hmem, pkg, hget, hcond, hr⟩
  rcases go p2f [] h with h' | h'
  · cases h'
  · exact h'

/-! ## More shape lemmas for the pipeline -/

theorem pre_process_packages_sorted {env : Env} {data d' : Data}
    (h : pre_process env data = some d') :
    d'.packages_sorted = pySortStr (dictKeys data.packages) := by
  obtain ⟨dmid, h1, rfl⟩ := pre_process_destruct h
  have hmid := licensesSortedPass_fields h1
  have hp : dmid.packages = data.packages := by
    rw [hmid]
    simp [catalogPass, detectorsPass, licenseExprPass, sortFilesPass]
  simp [relationshipsPass, packageInfoPass, spdxAssignPass, packagesSortedPass, hp]

theorem pre_process_relationships {env : Env} {data d' : Data}
    (h : pre_process env data = some d') :
    d'.relationships = some (
      ((data.relationships.getD []).filter keepRel) ++
      describesOf d'.packages d'.packages_sorted (p2fOf d'.files) ++
      containsOf d'.packages (p2fOf d'.files)) := by
  obtain ⟨dmid, h1, rfl⟩ := pre_process_destruct h
  have hmid := licensesSortedPass_fields h1
  have hrel : dmid.relationships = data.relationships := by
    rw [hmid]
    simp [catalogPass, detectorsPass, licenseExprPass, sortFilesPass]
  simp only [relationshipsPass, packageInfoPass, spdxAssignPass, packagesSortedPass]
  simp only [hrel]
  cases data.relationships with
  | none => rfl
  | some rels => rfl

theorem processFiles_length (env : Env) (files : List File) :
    (processFiles env files).length = files.length := by
  simp [processFiles, length_sortByKey]

theorem processFiles_spdx_get {env : Env} {files : List File} {i : Nat}
    (hi : i < (processFiles env files).length) :
    ((processFiles env files).get ⟨i, hi⟩).spdx_id = "SPDXRef-File-" ++ toString (i + 1) := by
  have hi' : i < ((sortByKey (fun f => f.file_path) files).map
      (fun f => { f with license_expr := buildLicenseExpr env f.licenses })).enum.length := by
    simpa [processFiles] using hi
  simp only [processFiles, List.get_eq_getElem, List.getElem_map, List.getElem_enum]

theorem processFiles_mem {env : Env} {files : List File} {f' : File}
    (h : f' ∈ processFiles env files) :
    ∃ f ∈ files, f'.package = f.package ∧ f'.licenses = f.licenses ∧
      f'.license_expr = buildLicenseExpr env f.licenses := by
  unfold processFiles at h
  obtain ⟨p, hmem, rfl⟩ := List.mem_map.mp h
  have hp : p.2 ∈ (sortByKey (fun f => f.file_path) files).map
      (fun f => { f with license_expr := buildLicenseExpr env f.licenses }) :=
    List.snd_mem_of_mem_enumFrom hmem
  obtain ⟨f, hf, hfp⟩ := List.mem_map.mp hp
  exact ⟨f, mem_sortByKey.mp hf, by rw [← hfp], by rw [← hfp], by rw [← hfp]⟩

/-! ## Decimal representations are injective -/

theorem decimalDigits_lt {n : Nat} (h : n < 10) :
    decimalDigits n = [Nat.digitChar n] := by
  rw [decimalDigits]
  simp [h]

theorem decimalDigits_ge {n : Nat} (h : ¬ n < 10) :
    decimalDigits n = decimalDigits (n / 10) ++ [Nat.digitChar (n % 10)] := by
  rw [decimalDigits]
  simp [h]

theorem decimalDigits_ne_nil (n : Nat) : decimalDigits n ≠ [] := by
  by_cases h : n < 10
  · rw [decimalDigits_lt h]; simp
  · rw [decimalDigits_ge h]; simp

theorem toDigitsCore_eq_decimal :
    ∀ (fuel n : Nat) (ds : List Char), n < fuel →
      Nat.toDigitsCore 10 fuel n ds = decimalDigits n ++ ds := by
  intro fuel
  induction fuel with
  | zero => intro n ds h; omega
  | succ f ih =>
    intro n ds h
    show (if n / 10 = 0 then Nat.digitChar (n % 10) :: ds
      else Nat.toDigitsCore 10 f (n / 10) (Nat.digitChar (n % 10) :: ds)) = _
    by_cases h10 : n / 10 = 0
    · have hn : n < 10 := by omega
      rw [if_pos h10, decimalDigits_lt hn, Nat.mod_eq_of_lt hn]
      rfl
    · have hge : ¬ n < 10 := by omega
      rw [if_neg h10, ih (n / 10) _ (by omega), decimalDigits_ge hge, List.append_assoc]
      rfl

theorem repr_eq_decimalDigits (n : Nat) : Nat.repr n = (decimalDigits n).asString := by
  show (Nat.toDigitsCore 10 (n + 1) n []).asString = _
  rw [toDigitsCore_eq_decimal (n + 1) n [] (Nat.lt_succ_self n), List.append_nil]

theorem digitChar_inj_lt : ∀ a < 10, ∀ b < 10, Nat.digitChar a = Nat.digitChar b → a = b := by
  decide

theorem decimalDigits_inj : ∀ n m : Nat, decimalDigits n = decimalDigits m → n = m := by
  intro n
  induction n using Nat.strong_induction_on with
  | _ n ih =>
    intro m h
    by_cases hn : n < 10 <;> by_cases hm : m < 10
    · rw [decimalDigits_lt hn, decimalDigits_lt hm] at h
      exact digitChar_inj_lt n hn m hm (List.singleton_inj.mp h)
    · rw [decimalDigits_lt hn, decimalDigits_ge hm] at h
      have hlen := congrArg List.length h
      simp at hlen
      exact absurd hlen (decimalDigits_ne_nil _)
    · rw [decimalDigits_ge hn, decimalDigits_lt hm] at h
      have hlen := congrArg List.length h
      simp at hlen
      exact absurd hlen (decimalDigits_ne_nil _)
    · rw [decimalDigits_ge hn, decimalDigits_ge hm] at h
      obtain ⟨h1, h2⟩ := List.append_inj' h rfl
      have hd : n / 10 = m / 10 :=
        ih (n / 10) (by omega) (m / 10) h1
      have hmod : n % 10 = m % 10 :=
        digitChar_inj_lt (n % 10) (Nat.mod_lt _ (by omega)) (m % 10) (Nat.mod_lt _ (by omega))
          (List.singleton_inj.mp h2)
      omega

theorem nat_repr_inj {n m : Nat} (h : Nat.repr n = Nat.repr m) : n = m := by
  rw [repr_eq_decimalDigits, repr_eq_decimalDigits] at h
  exact decimalDigits_inj _ _ (List.asString_inj.mp h)

theorem natToString_inj {n m : Nat} (h : toString n = toString m) : n = m :=
  nat_repr_inj h

/-- Two `{prefix}-{n}` identifiers with the same prefix and distinct
numbers differ. -/
theorem idString_inj {pre : String} {i j : Nat}
    (h : pre ++ toString i = pre ++ toString j) : i = j :=
  natToString_inj (strAppend_right_inj h)

/-- The assigned file identifiers are pairwise distinct. -/
theorem processFiles_spdx_nodup (env : Env) (files : List File) :
    ((processFiles env files).map (·.spdx_id)).Nodup := by
  rw [List.nodup_iff_injective_get]
  intro ⟨i, hi⟩ ⟨j, hj⟩ hij
  simp only [List.get_map] at hij
  rw [processFiles_spdx_get, processFiles_spdx_get] at hij
  have := idString_inj hij
  simp only [Fin.mk.injEq]
  omega

/-! ## Claim C2 -/

/-- C2 counterexample: a file with an empty raw license list gets the empty
string as its `license_expr` — not a non-empty string. -/
theorem C2_counterexample :
    ∃ d, pre_process env0 dataNoLic = some d ∧ ∃ f ∈ d.files, f.license_expr = "" := by
  have hne : pre_process env0 dataNoLic ≠ none := by decide
  cases hcase : pre_process env0 dataNoLic with
  | none => exact absurd hcase hne
  | some d =>
    refine ⟨d, rfl, ?_⟩
    have hf : d.files = processFiles env0 dataNoLic.files := pre_process_files hcase
    have hconc : processFiles env0 dataNoLic.files =
        [{ file_path := "a.c", licenses := [], detectors := [], package := "P",
           license_expr := "", spdx_id := "SPDXRef-File-1" }] := by decide
    rw [hf, hconc]
    exact ⟨_, List.mem_singleton.mpr rfl, rfl⟩

/-- C2 (amended): after `pre_process`, every file's `license_expr` is a
string that is a key of `data.licenses`; it is the empty string exactly for
the empty-license sentinel, and the empty string is then itself a key. The
hypothesis states the documented contract of the external resolver: a valid
id-only expression occurs among its own constituent identifiers. -/
theorem C2_license_expr_is_key (env : Env) (data d' : Data)
    (hres : ∀ s, (env.get_spdx_license_expr_info s).valid = true →
      (env.get_spdx_license_expr_info s).is_id_only = true →
      s ∈ (env.get_spdx_license_expr_info s).licenses)
    (h : pre_process env data = some d') :
    ∀ f ∈ d'.files, dictContains d'.licenses f.license_expr = true := by
  intro f hf
  rw [pre_process_licenses h]
  exact catalogFold_covers hres (List.mem_map_of_mem _ hf)

/-- Witness for C2 at a concrete input: the sentinel key `""` is present. -/
theorem C2_witness :
    ∃ d, pre_process env0 dataNoLic = some d ∧
      ∀ f ∈ d.files, dictContains d.licenses f.license_expr = true := by
  have hne : pre_process env0 dataNoLic ≠ none := by decide
  cases hcase : pre_process env0 dataNoLic with
  | none => exact absurd hcase hne
  | some d =>
    exact ⟨d, rfl, C2_license_expr_is_key env0 dataNoLic d env0_resolver_sane hcase⟩

/-! ## Claim C4 -/

/-- C4: the output catalog is exactly the referenced set: every file's
`license_expr` is a key, every constituent of every cataloged compound
entry is a key, and every key is a file's `license_expr` or a
resolver-reported constituent of one. The first hypothesis is the resolver
contract (a valid id-only expression lists itself); the second says the
input catalog holds no compound entries under identifier keys (the single
reuse branch copies input entries verbatim, so a compound entry planted in
the input under a bare-identifier key would be copied without registering
its constituents). -/
theorem C4_catalog_exact (env : Env) (data d' : Data)
    (hres : ∀ s, (env.get_spdx_license_expr_info s).valid = true →
      (env.get_spdx_license_expr_info s).is_id_only = true →
      s ∈ (env.get_spdx_license_expr_info s).licenses)
    (hinp : ∀ k ex, (k, some (LicEntry.expr ex)) ∈ data.licenses → False)
    (h : pre_process env data = some d') :
    (∀ f ∈ d'.files, dictContains d'.licenses f.license_expr = true) ∧
    (∀ k e, (k, some (LicEntry.expr e)) ∈ d'.licenses →
      ∀ id ∈ e.licenses, dictContains d'.licenses id = true) ∧
    (∀ k, dictContains d'.licenses k = true →
      ∃ f ∈ d'.files, k = f.license_expr ∨
        k ∈ (env.get_spdx_license_expr_info f.license_expr).licenses) := by
  have hl := pre_process_licenses h
  refine ⟨?_, ?_, ?_⟩
  · intro f hf
    rw [hl]
    exact catalogFold_covers hres (List.mem_map_of_mem _ hf)
  · intro k e hmem id hid
    rw [hl] at hmem ⊢
    have hclosed : catClosed ((d'.files.map (fun f => f.license_expr)).foldl
        (catalogStep env data.licenses) []) :=
      catalogFold_closed hinp (by intro k e h'; cases h')
    exact hclosed k e hmem id hid
  · intro k hk
    rw [hl] at hk
    rcases catalogFold_keys hk with h' | ⟨e, he, h''⟩
    · cases h'
    · obtain ⟨f, hf, rfl⟩ := List.mem_map.mp he
      exact ⟨f, hf, h''⟩

/-- Witness for C4 at a concrete input. -/
theorem C4_witness :
    ∃ d, pre_process env0 dataApache = some d ∧
      ((∀ f ∈ d.files, dictContains d.licenses f.license_expr = true) ∧
      (∀ k e, (k, some (LicEntry.expr e)) ∈ d.licenses →
        ∀ id ∈ e.licenses, dictContains d.licenses id = true) ∧
      (∀ k, dictContains d.licenses k = true →
        ∃ f ∈ d.files, k = f.license_expr ∨
          k ∈ (env0.get_spdx_license_expr_info f.license_expr).licenses)) := by
  have hne : pre_process env0 dataApache ≠ none := by decide
  cases hcase : pre_process env0 dataApache with
  | none => exact absurd hcase hne
  | some d =>
    exact ⟨d, rfl,
      C4_catalog_exact env0 dataApache d env0_resolver_sane
        (by intro k ex hmem; simp [dataApache, emptyData] at hmem) hcase⟩

/-! ## Claim C10 -/

/-- C10: for every file, the computed license expression depends only on the
set of distinct upper-cased raw tokens in its license list: any two raw
token lists with the same set of upper-cased tokens (in particular a
permutation, a duplication, or the addition of a case-variant of an existing
token) produce the same `license_expr`. -/
theorem C10_license_expr_function_of_upper_token_set (env : Env) (l₁ l₂ : List String)
    (hm : ∀ x, x ∈ l₁.map pyUpper ↔ x ∈ l₂.map pyUpper) :
    buildLicenseExpr env l₁ = buildLicenseExpr env l₂ := by
  apply buildLicenseExpr_ext
  intro x
  constructor
  · rintro ⟨t, ht, rfl⟩
    obtain ⟨t', ht', hpt'⟩ := List.mem_map.mp ((hm (pyUpper t)).mp (List.mem_map_of_mem _ ht))
    exact ⟨t', ht', hpt'⟩
  · rintro ⟨t, ht, rfl⟩
    obtain ⟨t', ht', hpt'⟩ := List.mem_map.mp ((hm (pyUpper t)).mpr (List.mem_map_of_mem _ ht))
    exact ⟨t', ht', hpt'⟩

/-- Witness for C10 at a concrete input: a permuted, duplicated,
case-varied list gives the same expression as the plain one. -/
theorem C10_witness :
    (∀ x, x ∈ (["mit", "Apache-2.0", "MIT"].map pyUpper) ↔
        x ∈ (["APACHE-2.0", "MIT"].map pyUpper)) ∧
      buildLicenseExpr env0 ["mit", "Apache-2.0", "MIT"] =
        buildLicenseExpr env0 ["APACHE-2.0", "MIT"] := by
  have h1 : ["mit", "Apache-2.0", "MIT"].map pyUpper = ["MIT", "APACHE-2.0", "MIT"] := by
    decide
  have h2 : ["APACHE-2.0", "MIT"].map pyUpper = ["APACHE-2.0", "MIT"] := by decide
  have hm : ∀ x, x ∈ (["mit", "Apache-2.0", "MIT"].map pyUpper) ↔
      x ∈ (["APACHE-2.0", "MIT"].map pyUpper) := by
    intro x
    rw [h1, h2]
    simp only [List.mem_cons, List.not_mem_nil]
    tauto
  exact ⟨hm, C10_license_expr_function_of_upper_token_set env0 _ _ hm⟩

/-! ## Claim C1 -/

/-- C1 counterexample: the raw token `A OR B` is valid, not id-only, and
decomposes into two identifiers (cond. of the first kind), yet it also
joins the or-items set and appears itself (unparenthesized, as the only
item) in the resulting `license_expr` — the classification is not
exclusive and such a token does not contribute via the repeated set only. -/
theorem C1_counterexample :
    condRep env0 (pyUpper "A OR B") = true ∧
      pyUpper "A OR B" ∈ (classifyTokens env0 ["A OR B"]).ors ∧
      buildLicenseExpr env0 ["A OR B"] = "A OR B" := by
  refine ⟨by decide, by decide, by decide⟩

/-- C1 (amended): the two classification steps are independent: a token
that is valid, not id-only, and decomposes into more than one identifier
adds its identifiers to the repeated set, and every token additionally
joins the or-items set when it is invalid or contains a top-level OR, and
the simple-items set otherwise. -/
theorem C1_classification (env : Env) (l : List String) (t : String) (ht : t ∈ l) :
    (condRep env (pyUpper t) = true →
      ∀ id ∈ (env.get_spdx_license_expr_info (pyUpper t)).licenses,
        id ∈ (classifyTokens env l).repeated) ∧
    (condOr env (pyUpper t) = true → pyUpper t ∈ (classifyTokens env l).ors) ∧
    (condOr env (pyUpper t) = false → pyUpper t ∈ (classifyTokens env l).simple) := by
  refine ⟨?_, ?_, ?_⟩
  · intro hc id hid
    exact mem_classify_repeated.mpr ⟨t, ht, hc, hid⟩
  · intro hc
    exact mem_classify_ors.mpr ⟨t, ht, rfl, hc⟩
  · intro hc
    exact mem_classify_simple.mpr ⟨t, ht, rfl, hc⟩

/-- Witness for C1 at a concrete input. -/
theorem C1_witness :
    ("A OR B" ∈ ["A OR B"] ∧ condOr env0 (pyUpper "A OR B") = true) ∧
      pyUpper "A OR B" ∈ (classifyTokens env0 ["A OR B"]).ors :=
  ⟨⟨by decide, by decide⟩,
   (C1_classification env0 ["A OR B"] "A OR B" (by decide)).2.1 (by decide)⟩

/-! ## Claim C3 -/

/-- The built expression for a single bare identifier that the resolver
(queried on the upper-cased token) reports valid, id-only and OR-free is
the upper-cased token. -/
theorem buildLicenseExpr_single (env : Env) (X : String)
    (hval : (env.get_spdx_license_expr_info (pyUpper X)).valid = true)
    (hid : (env.get_spdx_license_expr_info (pyUpper X)).is_id_only = true)
    (hor : (env.get_spdx_license_expr_info (pyUpper X)).or_present = false) :
    buildLicenseExpr env [X] = pyUpper X := by
  have hcondOr : condOr env (pyUpper X) = false := by
    simp [condOr, hval, hor]
  have hcondRep : condRep env (pyUpper X) = false := by
    simp [condRep, hid]
  have hsent : sentinelLicenses [X] = [X] := by simp [sentinelLicenses]
  have hsimple : (classifyTokens env [X]).simple = [pyUpper X] := by
    rw [classifyTokens, List.foldl_cons, List.foldl_nil, classifyStep_simple, hcondOr]
    simp [sAdd]
  have hors : (classifyTokens env [X]).ors = [] := by
    rw [classifyTokens, List.foldl_cons, List.foldl_nil, classifyStep_ors, hcondOr]
    simp
  have hrep : (classifyTokens env [X]).repeated = [] := by
    rw [classifyTokens, List.foldl_cons, List.foldl_nil, classifyStep_repeated, hcondRep]
    simp
  unfold buildLicenseExpr
  rw [hsent]
  simp only [joinedItems]
  rw [hsimple, hors, hrep]
  show String.intercalate " AND "
      (pySortStr (sUnion (sDiff [pyUpper X] []) (sOfList (List.map _ [])))) = pyUpper X
  rfl

/-- C3 counterexample: for the file whose single raw license is the bare
recognized identifier `Apache-2.0` (which the resolver reports valid and
id-only), the resulting `license_expr` is the upper-cased `APACHE-2.0`,
not `Apache-2.0` character for character. -/
theorem C3_counterexample :
    (pre_process env0 dataApache).map (fun d => d.files.map (·.license_expr)) =
        some ["APACHE-2.0"] ∧
      ("APACHE-2.0" : String) ≠ "Apache-2.0" := by
  refine ⟨by decide, by decide⟩

/-- C3 (amended): for a file whose raw license list is a single bare
identifier `X` that the resolver reports valid, id-only and OR-free, the
resulting `license_expr` is the upper-cased token `pyUpper X`; it equals
`X` exactly only when `X` is already upper-case. -/
theorem C3_single_identifier (env : Env) (data d' : Data)
    (h : pre_process env data = some d') (f : File) (hf : f ∈ d'.files) (X : String)
    (hlic : f.licenses = [X])
    (hval : (env.get_spdx_license_expr_info (pyUpper X)).valid = true)
    (hid : (env.get_spdx_license_expr_info (pyUpper X)).is_id_only = true)
    (hor : (env.get_spdx_license_expr_info (pyUpper X)).or_present = false) :
    f.license_expr = pyUpper X := by
  rw [pre_process_files h] at hf
  rw [processFiles_license_expr f hf, hlic]
  exact buildLicenseExpr_single env X hval hid hor

/-- Witness for C3 at a concrete input. -/
theorem C7_counterexample :
    (pre_process env0 dataGithub).map (fun d => d.packages.map (fun kv => kv.2.name)) =
        some [some "org/repo"] ∧
      some "org/repo" ≠ some "org" := by
  refine ⟨by decide, by decide⟩

/-- C7 (amended): for a package whose `name` is unset and whose `url`
contains `github.com`, the derived name is the entire remainder of the URL
after `github.com/` (with a trailing `.git` stripped), not just the first
path segment. Stated for a snapshot with that single package, so that no
later name collision can rewrite the derived name. -/
theorem C7_github_name_remainder (env : Env) (data d' : Data)
    (h : pre_process env data = some d') (pid : String) (pkg : Package)
    (hpk : data.packages = [(pid, pkg)]) (hname : pkg.name = none)
    (u : String) (hurl : pkg.url = some u) (n : String) (hgh : githubName u = some n) :
    ∃ p', dictGet d'.packages pid = some p' ∧ p'.name = some n := by
  rw [pre_process_packages h, hpk]
  simp only [dictKeys, List.map_cons, List.map_nil, pySortStr, sortByKey, insertByKey,
    spdxAssignPackages, spdxAssignStep, List.foldl_cons, List.foldl_nil, dictUpdate,
    beq_self_eq_true, if_true, packageInfoPackages, packageInfoStep, dictGet, hname, hurl, hgh,
    Option.isNone_none, Option.getD, dictSet, dictContains, dictErase]
  simp only [Option.isNone_some, Bool.false_eq_true, if_false]
  split <;> exact ⟨_, rfl, rfl⟩

/-- Witness for C7 at a concrete input: the name derived from
`https://github.com/org/repo` is `org/repo`. -/
theorem C7_witness :
    ∃ d', pre_process env0 dataGithub = some d' ∧
      ∃ p', dictGet d'.packages "pg" = some p' ∧ p'.name = some "org/repo" := by
  have hne : pre_process env0 dataGithub ≠ none := by decide
  cases hcase : pre_process env0 dataGithub with
  | none => exact absurd hcase hne
  | some d' =>
    exact ⟨d', rfl,
      C7_github_name_remainder env0 dataGithub d' hcase "pg"
        (mkPkg "pg" none none (some "https://github.com/org/repo")) rfl rfl
        "https://github.com/org/repo" rfl "org/repo" (by decide)⟩

/-! ## Claim C6 -/

theorem C6_counterexample :
    (pre_process env0 dataTwoUrlless).map
        (fun d => d.packages.map (fun kv => (kv.1, kv.2.name))) =
      some [("p1", some "X"), ("p2", some "X")] ∧ ("p1" : String) ≠ "p2" := by
  refine ⟨by decide, by decide⟩

/-- C6 (amended): name uniqueness is only guaranteed in the case the
resolver is designed for — two packages (both with `url` set, so the
normalization is not skipped) colliding on one name with distinct versions
end up with the distinct names `name-version1` and `name-version2`.
Packages without a `url` skip collision resolution entirely, and two
colliding packages sharing one version receive equal suffixed names, so
the claim's universal uniqueness fails (see the counterexample). -/
theorem C6_two_collision (env : Env) (data d' : Data)
    (h : pre_process env data = some d')
    (pid1 pid2 : String) (p1 p2 : Package)
    (hpk : data.packages = [(pid1, p1), (pid2, p2)]) (hne : pid1 ≠ pid2)
    (n : String) (hn1 : p1.name = some n) (hn2 : p2.name = some n)
    (u1 u2 : String) (hu1 : p1.url = some u1) (hu2 : p2.url = some u2)
    (v1 v2 : String) (hv1 : p1.version = some v1) (hv2 : p2.version = some v2)
    (hvne : v1 ≠ v2) :
    ∃ q1 q2, dictGet d'.packages pid1 = some q1 ∧ dictGet d'.packages pid2 = some q2 ∧
      q1.name = some (n ++ "-" ++ v1) ∧ q2.name = some (n ++ "-" ++ v2) ∧
      q1.name ≠ q2.name := by
  have hne' : pid2 ≠ pid1 := hne.symm
  have hnames : (n ++ "-" ++ v1) ≠ (n ++ "-" ++ v2) := by
    intro hcon
    rw [String.append_assoc, String.append_assoc] at hcon
    exact hvne (strAppend_right_inj (strAppend_right_inj hcon))
  rw [pre_process_packages h, hpk]
  by_cases hb1 : (p1.browser_url.isNone && pyStartsWith u1 "http") = true <;>
  by_cases hb2 : (p2.browser_url.isNone && pyStartsWith u2 "http") = true <;>
  cases hord : strLe pid1 pid2 <;>
    simp only [dictKeys, List.map_cons, List.map_nil, pySortStr, sortByKey, insertByKey,
      List.foldl_cons, List.foldl_nil, hord, if_true, if_false, Bool.false_eq_true,
      spdxAssignPackages, spdxAssignStep, dictUpdate, beq_self_eq_true, beq_iff_eq, hne, hne',
      packageInfoPackages, packageInfoStep, dictGet, dictSet, dictContains, dictErase,
      hn1, hn2, hu1, hu2, hv1, hv2, hb1, hb2,
      Option.isNone_some, Option.isNone_none, Option.getD, if_true, if_false] <;>
    exact ⟨_, _, rfl, rfl, rfl, rfl, by simpa using hnames⟩

/-- Witness for C6 at a concrete input: names `X`/`1.0` and `X`/`2.0`
become `X-1.0` and `X-2.0`. -/
theorem C6_witness :
    ∃ d', pre_process env0 dataCollide = some d' ∧
      ∃ q1 q2, dictGet d'.packages "p1" = some q1 ∧ dictGet d'.packages "p2" = some q2 ∧
        q1.name = some ("X" ++ "-" ++ "1.0") ∧ q2.name = some ("X" ++ "-" ++ "2.0") ∧
        q1.name ≠ q2.name := by
  have hne : pre_process env0 dataCollide ≠ none := by decide
  cases hcase : pre_process env0 dataCollide with
  | none => exact absurd hcase hne
  | some d' =>
    exact ⟨d', rfl,
      C6_two_collision env0 dataCollide d' hcase "p1" "p2"
        (mkPkg "p1" (some "X") (some "1.0") (some "http://u1"))
        (mkPkg "p2" (some "X") (some "2.0") (some "http://u2"))
        rfl (by decide) "X" rfl rfl "http://u1" "http://u2" rfl rfl
        "1.0" "2.0" rfl rfl (by decide)⟩

/-! ## Claim C3 (witness) -/

theorem C3_witness :
    (∃ d', pre_process env0 dataApache = some d' ∧
      ∃ f, f ∈ d'.files ∧ f.licenses = ["Apache-2.0"] ∧
        f.license_expr = pyUpper "Apache-2.0") := by
  have hne : pre_process env0 dataApache ≠ none := by decide
  cases hcase : pre_process env0 dataApache with
  | none => exact absurd hcase hne
  | some d' =>
    refine ⟨d', rfl, ?_⟩
    have hfseq : d'.files = processFiles env0 dataApache.files := pre_process_files hcase
    have hpf : processFiles env0 dataApache.files = [apacheFileOut] := by decide
    have hf : apacheFileOut ∈ d'.files := by
      rw [hfseq, hpf]
      exact List.mem_singleton.mpr rfl
    exact ⟨apacheFileOut, hf, rfl,
      C3_single_identifier env0 dataApache d' hcase apacheFileOut hf "Apache-2.0" rfl
        (by decide) (by decide) (by decide)⟩


/-! ## Key preservation through the package passes -/

theorem packageInfoStep_keys (st : PkgState) (pid : String) :
    dictKeys (packageInfoStep st pid).pkgs = dictKeys st.pkgs := by
  unfold packageInfoStep
  cases hget : dictGet st.pkgs pid with
  | none => rfl
  | some p0 =>
    cases hurl : p0.url with
    | none =>
      simp only [hurl]
      simp [dictKeys_dictUpdate]
    | some url =>
      simp only [hurl]
      cases hname : p0.name with
      | some nm0 =>
        simp only [Option.isNone_some, Bool.false_eq_true, if_false]
        cases hmap : dictGet st.nameMap ((some nm0).getD "") with
        | none =>
          simp only [hmap]
          simp [dictKeys_dictUpdate]
        | some epid =>
          simp only [hmap]
          cases hep : dictGet st.pkgs epid with
          | none =>
            simp only [hep]
            simp [dictKeys_dictUpdate]
          | some ep =>
            simp only [hep]
            simp [dictKeys_dictUpdate]
      | none =>
        simp only [Option.isNone_none, if_true]
        cases hgh : githubName url with
        | some gn =>
          simp only [Option.isNone_some, Bool.false_eq_true, if_false]
          cases hmap : dictGet st.nameMap ((some gn).getD "") with
          | none =>
            simp only [hmap]
            simp [dictKeys_dictUpdate]
          | some epid =>
            simp only [hmap]
            cases hep : dictGet st.pkgs epid with
            | none =>
              simp only [hep]
              simp [dictKeys_dictUpdate]
            | some ep =>
              simp only [hep]
              simp [dictKeys_dictUpdate]
        | none =>
          simp only [Option.isNone_none, if_true, Option.getD_some]
          cases hmap : dictGet st.nameMap (pyOrS p0.id (pyOrS url "NoneName")) with
          | none =>
            simp only [hmap]
            simp [dictKeys_dictUpdate]
          | some epid =>
            simp only [hmap]
            cases hep : dictGet st.pkgs epid with
            | none =>
              simp only [hep]
              simp [dictKeys_dictUpdate]
            | some ep =>
              simp only [hep]
              simp [dictKeys_dictUpdate]

theorem packageInfoFold_keys : ∀ (l : List String) (st : PkgState),
    dictKeys ((l.foldl packageInfoStep st).pkgs) = dictKeys st.pkgs
  | [], _ => rfl
  | x :: rest, st => by
    rw [List.foldl_cons, packageInfoFold_keys rest _, packageInfoStep_keys]

theorem spdxAssignFold_keys : ∀ (l : List String) (pkgs : List (String × Package)) (c : Nat),
    dictKeys ((l.foldl spdxAssignStep (pkgs, c)).1) = dictKeys pkgs
  | [], _, _ => rfl
  | x :: rest, pkgs, c => by
    rw [List.foldl_cons]
    rw [show spdxAssignStep (pkgs, c) x =
      (dictUpdate pkgs x (fun p =>
        { p with spdx_id := some ("SPDXRef-Package-" ++ toString c),
                 external_refs := some (p.external_refs.getD []) }), c + 1) from rfl]
    rw [spdxAssignFold_keys rest _ _, dictKeys_dictUpdate]

theorem pre_process_package_keys {env : Env} {data d' : Data}
    (h : pre_process env data = some d') :
    dictKeys d'.packages = dictKeys data.packages := by
  rw [pre_process_packages h]
  unfold packageInfoPackages spdxAssignPackages
  rw [packageInfoFold_keys]
  exact spdxAssignFold_keys _ _ _

/-! ## The per-rank package identifier -/

theorem pySortStr_nodup {l : List String} (h : l.Nodup) : (pySortStr l).Nodup :=
  ((sortByKey_perm (fun s => s) l).nodup_iff).mpr h

theorem pre_process_package_rank {env : Env} {data d' : Data}
    (h : pre_process env data = some d')
    (hnd : (dictKeys data.packages).Nodup)
    {i : Nat} (hi : i < (pySortStr (dictKeys data.packages)).length) :
    ∃ pkg, dictGet d'.packages ((pySortStr (dictKeys data.packages)).get ⟨i, hi⟩) = some pkg ∧
      pkg.spdx_id = some ("SPDXRef-Package-" ++ toString (1 + i)) := by
  have hsnd : (pySortStr (dictKeys data.packages)).Nodup := pySortStr_nodup hnd
  have hmem : (pySortStr (dictKeys data.packages)).get ⟨i, hi⟩ ∈ dictKeys data.packages := by
    have hm := List.get_mem (pySortStr (dictKeys data.packages)) i hi
    unfold pySortStr at hm
    exact mem_sortByKey.mp hm
  obtain ⟨v, hv⟩ := dictContains_iff_get.mp (dictContains_iff_mem_keys.mpr hmem)
  have hmap : (dictGet d'.packages
      ((pySortStr (dictKeys data.packages)).get ⟨i, hi⟩)).map (·.spdx_id)
      = some (some ("SPDXRef-Package-" ++ toString (1 + i))) := by
    rw [pre_process_packages h, packageInfoPackages_spdx]
    unfold spdxAssignPackages
    rw [spdxAssignFold_get hsnd hi, hv]
    rfl
  cases hd : dictGet d'.packages ((pySortStr (dictKeys data.packages)).get ⟨i, hi⟩) with
  | none => rw [hd] at hmap; cases hmap
  | some pkg =>
    rw [hd] at hmap
    exact ⟨pkg, rfl, Option.some_inj.mp hmap⟩

/-! ## Truthiness of the assigned identifiers -/

theorem str_append_ne_empty {pre : String} (t : String) (hpre : pre.data ≠ []) :
    pre ++ t ≠ "" := by
  intro hc
  have h2 := congrArg String.data hc
  rw [String.data_append] at h2
  exact hpre (List.append_eq_nil.mp h2).1

theorem optTruthy_append (pre t : String) (hpre : pre.data ≠ []) :
    optTruthy (some (pre ++ t)) = true := by
  have h := @str_append_ne_empty pre t hpre
  show (!(pre ++ t == "")) = true
  simp [h]

/-! ## Association lists with distinct keys -/

theorem mem_of_dictGet {α : Type} {d : List (String × α)} {k : String} {v : α}
    (h : dictGet d k = some v) : (k, v) ∈ d := by
  induction d with
  | nil => cases h
  | cons kv rest ih =>
    obtain ⟨k1, v1⟩ := kv
    rw [dictGet] at h
    by_cases hk : k1 = k
    · subst hk
      simp only [beq_self_eq_true, if_true] at h
      cases h
      exact List.mem_cons_self _ _
    · have hk' : (k1 == k) = false := by simpa using hk
      simp only [hk', Bool.false_eq_true, if_false] at h
      exact List.mem_cons_of_mem _ (ih h)

theorem dictGet_of_mem_nodup {α : Type} {d : List (String × α)}
    (hnd : (dictKeys d).Nodup) {kv : String × α} (h : kv ∈ d) :
    dictGet d kv.1 = some kv.2 := by
  induction d with
  | nil => cases h
  | cons hd rest ih =>
    have hnd' : (hd.1 :: dictKeys rest).Nodup := hnd
    obtain ⟨hk, hrest⟩ := List.nodup_cons.mp hnd'
    rcases List.mem_cons.mp h with rfl | hmem
    · rw [dictGet]
      simp
    · have hne : hd.1 ≠ kv.1 := by
        intro hc
        apply hk
        rw [hc]
        exact List.mem_map.mpr ⟨kv, hmem, rfl⟩
      rw [dictGet]
      simp only [show (hd.1 == kv.1) = false by simpa using hne, Bool.false_eq_true, if_false]
      exact ih hrest hmem


/-! ## Counting helpers -/

theorem sum_map_ite_eq_countP {α : Type} (l : List α) (p : α → Bool) :
    (l.map (fun x => if p x then 1 else 0)).sum = l.countP p := by
  induction l with
  | nil => rfl
  | cons x rest ih =>
    simp only [List.map_cons, List.sum_cons, List.countP_cons, ih]
    exact Nat.add_comm _ _

theorem countP_beq_and_eq_ite (pid : String) (q : String → Bool) :
    ∀ l : List String, l.Nodup → pid ∈ l →
      l.countP (fun x => x == pid && q x) = if q pid then 1 else 0 := by
  intro l
  induction l with
  | nil => intro _ hm; cases hm
  | cons x rest ih =>
    intro hnd hm
    obtain ⟨hx, hrest⟩ := List.nodup_cons.mp hnd
    rw [List.countP_cons]
    rcases List.mem_cons.mp hm with heq | hm'
    · subst heq
      have h0 : rest.countP (fun y => y == pid && q y) = 0 := by
        rw [List.countP_eq_zero]
        intro y hy
        have hne : y ≠ pid := fun hc => hx (hc ▸ hy)
        simp [hne]
      rw [h0]
      simp
    · have hxp : (x == pid && q x) = false := by
        have hne : x ≠ pid := fun hc => hx (hc ▸ hm')
        simp [hne]
      rw [ih hrest hm', hxp]
      simp

theorem count_eq_one_of_nodup_mem {α : Type} [BEq α] [LawfulBEq α] :
    ∀ {l : List α}, l.Nodup → ∀ {a : α}, a ∈ l → l.count a = 1 := by
  intro l
  induction l with
  | nil => intro _ a ha; cases ha
  | cons x rest ih =>
    intro hnd a ha
    obtain ⟨hx, hrest⟩ := List.nodup_cons.mp hnd
    rw [List.count_cons]
    rcases List.mem_cons.mp ha with heq | hm
    · subst heq
      have h0 : rest.count a = 0 := List.count_eq_zero.mpr hx
      rw [h0]
      simp
    · have hne : (x == a) = false := by
        have hne' : x ≠ a := fun hc => hx (hc ▸ hm)
        simpa using hne'
      rw [ih hrest hm, hne]
      simp

/-! ## Keys of the package-to-files grouping -/

theorem p2fAdd_keys_nodup {m : List (String × List String)}
    (h : (dictKeys m).Nodup) (pid fid : String) :
    (dictKeys (p2fAdd m pid fid)).Nodup := by
  unfold p2fAdd
  split
  · rw [dictKeys_dictUpdate]
    exact h
  · rename_i hc
    have hpid : pid ∉ dictKeys m := fun hmem =>
      hc (dictContains_iff_mem_keys.mpr hmem)
    have hkeys : dictKeys (m ++ [(pid, [fid])]) = dictKeys m ++ [pid] := by
      simp [dictKeys]
    rw [hkeys]
    rw [List.nodup_append]
    exact ⟨h, List.nodup_singleton pid, by
      intro a ha hb
      rw [List.mem_singleton] at hb
      exact hpid (hb ▸ ha)⟩

theorem p2fOf_keys_nodup (files : List File) : (dictKeys (p2fOf files)).Nodup := by
  have go : ∀ (l : List File) (m : List (String × List String)),
      (dictKeys m).Nodup → (dictKeys (l.foldl (fun m f => p2fAdd m f.package f.spdx_id) m)).Nodup := by
    intro l
    induction l with
    | nil => intro m h; exact h
    | cons f rest ih =>
      intro m h
      exact ih _ (p2fAdd_keys_nodup h f.package f.spdx_id)
  exact go files [] List.nodup_nil

/-! ## The rebuilt relationship kinds are filtered out -/

theorem keepRel_describes (x : String) :
    keepRel ⟨"SPDXRef-DOCUMENT", "DESCRIBES", x⟩ = false := rfl

theorem keepRel_contains (s x : String) :
    keepRel ⟨s, "CONTAINS", x⟩ = false := by
  simp [keepRel]

theorem filter_keepRel_describesOf (pkgs : List (String × Package)) (sorted : List String)
    (p2f : List (String × List String)) :
    (describesOf pkgs sorted p2f).filter keepRel = [] := by
  rw [List.filter_eq_nil]
  intro r hr
  obtain ⟨_, _, _, _, _, hre⟩ := describesOf_mem hr
  rw [hre, keepRel_describes]
  exact Bool.false_ne_true

theorem filter_keepRel_containsOf (pkgs : List (String × Package))
    (p2f : List (String × List String)) :
    (containsOf pkgs p2f).filter keepRel = [] := by
  rw [List.filter_eq_nil]
  intro r hr
  obtain ⟨_, _, _, _, _, _, _, hre⟩ := containsOf_mem hr
  rw [hre, keepRel_contains]
  exact Bool.false_ne_true


/-! ## The fresh edges depend on the packages only through the identifiers -/

theorem describesOf_congr {pkgs1 pkgs2 : List (String × Package)}
    {p2f : List (String × List String)} :
    ∀ {sorted : List String},
      (∀ pid ∈ sorted,
        (dictGet pkgs1 pid).map (·.spdx_id) = (dictGet pkgs2 pid).map (·.spdx_id)) →
      describesOf pkgs1 sorted p2f = describesOf pkgs2 sorted p2f := by
  suffices go : ∀ (l : List String),
      (∀ pid ∈ l,
        (dictGet pkgs1 pid).map (·.spdx_id) = (dictGet pkgs2 pid).map (·.spdx_id)) →
      ∀ acc : List Relationship,
      l.foldl (fun acc pid =>
        match dictGet pkgs1 pid with
        | none => acc
        | some pkg =>
          if optTruthy pkg.spdx_id && dictContains p2f pid then
            acc ++ [{ spdx_id := "SPDXRef-DOCUMENT", relationship_type := "DESCRIBES",
                      related_spdx_id := pkg.spdx_id.getD "" }]
          else acc) acc =
      l.foldl (fun acc pid =>
        match dictGet pkgs2 pid with
        | none => acc
        | some pkg =>
          if optTruthy pkg.spdx_id && dictContains p2f pid then
            acc ++ [{ spdx_id := "SPDXRef-DOCUMENT", relationship_type := "DESCRIBES",
                      related_spdx_id := pkg.spdx_id.getD "" }]
          else acc) acc by
    intro sorted hs
    exact go sorted hs []
  intro l
  induction l with
  | nil => intro _ _; rfl
  | cons x rest ih =>
    intro hs acc
    rw [List.foldl_cons, List.foldl_cons]
    have hx := hs x (List.mem_cons_self x rest)
    have hrest : ∀ pid ∈ rest,
        (dictGet pkgs1 pid).map (·.spdx_id) = (dictGet pkgs2 pid).map (·.spdx_id) :=
      fun pid hm => hs pid (List.mem_cons_of_mem x hm)
    cases h1 : dictGet pkgs1 x with
    | none =>
      rw [h1] at hx
      cases h2 : dictGet pkgs2 x with
      | none => exact ih hrest acc
      | some p2 => rw [h2] at hx; cases hx
    | some p1 =>
      rw [h1] at hx
      cases h2 : dictGet pkgs2 x with
      | none => rw [h2] at hx; cases hx
      | some p2 =>
        rw [h2] at hx
        have hsp : p1.spdx_id = p2.spdx_id := by simpa using hx
        dsimp only
        rw [hsp]
        exact ih hrest _

theorem containsOf_congr {pkgs1 pkgs2 : List (String × Package)}
    (hs : ∀ pid,
      (dictGet pkgs1 pid).map (·.spdx_id) = (dictGet pkgs2 pid).map (·.spdx_id))
    (p2f : List (String × List String)) :
    containsOf pkgs1 p2f = containsOf pkgs2 p2f := by
  suffices go : ∀ (l : List (String × List String)) (acc : List Relationship),
      l.foldl (fun acc kv =>
        match dictGet pkgs1 kv.1 with
        | none => acc
        | some pkg =>
          if optTruthy pkg.spdx_id then
            acc ++ kv.2.map (fun fid =>
              { spdx_id := pkg.spdx_id.getD "", relationship_type := "CONTAINS",
                related_spdx_id := fid })
          else acc) acc =
      l.foldl (fun acc kv =>
        match dictGet pkgs2 kv.1 with
        | none => acc
        | some pkg =>
          if optTruthy pkg.spdx_id then
            acc ++ kv.2.map (fun fid =>
              { spdx_id := pkg.spdx_id.getD "", relationship_type := "CONTAINS",
                related_spdx_id := fid })
          else acc) acc by
    exact go p2f []
  intro l
  induction l with
  | nil => intro _; rfl
  | cons kv rest ih =>
    intro acc
    rw [List.foldl_cons, List.foldl_cons]
    have hx := hs kv.1
    cases h1 : dictGet pkgs1 kv.1 with
    | none =>
      rw [h1] at hx
      cases h2 : dictGet pkgs2 kv.1 with
      | none => exact ih acc
      | some p2 => rw [h2] at hx; cases hx
    | some p1 =>
      rw [h1] at hx
      cases h2 : dictGet pkgs2 kv.1 with
      | none => rw [h2] at hx; cases hx
      | some p2 =>
        rw [h2] at hx
        have hsp : p1.spdx_id = p2.spdx_id := by simpa using hx
        dsimp only
        rw [hsp]
        exact ih _

/-! ## The file pipeline is idempotent -/

theorem processFiles_getElem {env : Env} {files : List File} {i : Nat}
    (hi : i < (processFiles env files).length)
    (hi' : i < (sortByKey (fun f : File => f.file_path) files).length) :
    (processFiles env files)[i] =
      { { (sortByKey (fun f : File => f.file_path) files)[i] with
            license_expr := buildLicenseExpr env
              ((sortByKey (fun f : File => f.file_path) files)[i]).licenses } with
          spdx_id := "SPDXRef-File-" ++ toString (i + 1) } := by
  simp only [processFiles, List.getElem_map, List.getElem_enum]

theorem sortByKey_eq_self {α : Type} {key : α → String} :
    ∀ {l : List α}, l.Pairwise (fun x y => strLe (key x) (key y) = true) →
      sortByKey key l = l
  | [], _ => rfl
  | a :: l, h => by
    obtain ⟨ha, hl⟩ := List.pairwise_cons.mp h
    rw [sortByKey, sortByKey_eq_self hl]
    cases l with
    | nil => rfl
    | cons b t => rw [insertByKey, if_pos (ha b (List.mem_cons_self b t))]

theorem processFiles_pairwise (env : Env) (files : List File) :
    (processFiles env files).Pairwise (fun x y => strLe x.file_path y.file_path = true) := by
  rw [List.pairwise_iff_get]
  intro i j hij
  have hi' : (i : Nat) < (sortByKey (fun f : File => f.file_path) files).length := by
    rw [length_sortByKey]
    exact lt_of_lt_of_eq i.isLt (processFiles_length env files)
  have hj' : (j : Nat) < (sortByKey (fun f : File => f.file_path) files).length := by
    rw [length_sortByKey]
    exact lt_of_lt_of_eq j.isLt (processFiles_length env files)
  have hp := pairwise_sortByKey (fun f : File => f.file_path) files
  rw [List.pairwise_iff_get] at hp
  have hpg := hp ⟨i, hi'⟩ ⟨j, hj'⟩ hij
  simp only [List.get_eq_getElem] at hpg ⊢
  rw [processFiles_getElem i.isLt hi', processFiles_getElem j.isLt hj']
  exact hpg

theorem sortFiles_processFiles (env : Env) (files : List File) :
    sortByKey (fun f : File => f.file_path) (processFiles env files) = processFiles env files :=
  sortByKey_eq_self (processFiles_pairwise env files)

theorem processFiles_idem (env : Env) (files : List File) :
    processFiles env (processFiles env files) = processFiles env files := by
  have hs := sortFiles_processFiles env files
  apply List.ext_getElem
  · rw [processFiles_length]
  · intro i h1 h2
    have hi' : i < (sortByKey (fun f : File => f.file_path) (processFiles env files)).length := by
      rw [length_sortByKey]
      exact h2
    have hi2 : i < (sortByKey (fun f : File => f.file_path) files).length := by
      rw [length_sortByKey]
      rw [processFiles_length] at h2
      exact h2
    rw [processFiles_getElem h1 hi']
    have hgeq : (sortByKey (fun f : File => f.file_path) (processFiles env files))[i] =
        (processFiles env files)[i] := by
      simp only [hs]
    rw [hgeq]
    rw [processFiles_getElem h2 hi2]


/-! ## Shape of the assigned package identifiers -/

theorem pre_process_package_spdx_shape {env : Env} {data d' : Data}
    (h : pre_process env data = some d') (hnd : (dictKeys data.packages).Nodup)
    {pid : String} {pkg : Package} (hget : dictGet d'.packages pid = some pkg) :
    ∃ i : Nat, ∃ hi : i < (pySortStr (dictKeys data.packages)).length,
      (pySortStr (dictKeys data.packages)).get ⟨i, hi⟩ = pid ∧
      pkg.spdx_id = some ("SPDXRef-Package-" ++ toString (1 + i)) := by
  have hmem : pid ∈ dictKeys data.packages := by
    rw [← pre_process_package_keys h]
    exact dictContains_iff_mem_keys.mp (dictContains_iff_get.mpr ⟨pkg, hget⟩)
  have hmem' : pid ∈ pySortStr (dictKeys data.packages) := by
    unfold pySortStr
    exact mem_sortByKey.mpr hmem
  obtain ⟨i, hi⟩ := List.mem_iff_get.mp hmem'
  have hi2 : (pySortStr (dictKeys data.packages)).get ⟨(i : Nat), i.isLt⟩ = pid := hi
  obtain ⟨pkg2, hget2, hspdx⟩ := pre_process_package_rank h hnd i.isLt
  rw [hi2] at hget2
  rw [hget] at hget2
  have hpkg : pkg2 = pkg := (Option.some_inj.mp hget2).symm
  exact ⟨(i : Nat), i.isLt, hi2, by rw [← hpkg]; exact hspdx⟩

theorem pre_process_package_spdx_inj {env : Env} {data d' : Data}
    (h : pre_process env data = some d') (hnd : (dictKeys data.packages).Nodup)
    {p q : String} {pkp pkq : Package}
    (hgp : dictGet d'.packages p = some pkp) (hgq : dictGet d'.packages q = some pkq)
    (hne : p ≠ q) : pkp.spdx_id.getD "" ≠ pkq.spdx_id.getD "" := by
  obtain ⟨i, hi, hgi, hsi⟩ := pre_process_package_spdx_shape h hnd hgp
  obtain ⟨j, hj, hgj, hsj⟩ := pre_process_package_spdx_shape h hnd hgq
  rw [hsi, hsj]
  simp only [Option.getD_some]
  intro hc
  have hij := idString_inj hc
  have hij' : i = j := by omega
  subst hij'
  apply hne
  rw [← hgi, ← hgj]

theorem pre_process_package_truthy {env : Env} {data d' : Data}
    (h : pre_process env data = some d') (hnd : (dictKeys data.packages).Nodup)
    {pid : String} {pkg : Package} (hget : dictGet d'.packages pid = some pkg) :
    optTruthy pkg.spdx_id = true := by
  obtain ⟨i, hi, _, hs⟩ := pre_process_package_spdx_shape h hnd hget
  rw [hs]
  exact optTruthy_append _ _ (by decide)

theorem countP_beq_eq_one {pid : String} :
    ∀ {l : List String}, l.Nodup → pid ∈ l → l.countP (fun x => x == pid) = 1 := by
  intro l
  induction l with
  | nil => intro _ hm; cases hm
  | cons x rest ih =>
    intro hnd hm
    obtain ⟨hx, hrest⟩ := List.nodup_cons.mp hnd
    rw [List.countP_cons]
    rcases List.mem_cons.mp hm with heq | hm'
    · subst heq
      have h0 : rest.countP (fun y => y == pid) = 0 := by
        rw [List.countP_eq_zero]
        intro y hy
        have hne : y ≠ pid := fun hc => hx (hc ▸ hy)
        simp [hne]
      rw [h0]
      simp
    · have hxp : (x == pid) = false := by
        have hne : x ≠ pid := fun hc => hx (hc ▸ hm')
        simp [hne]
      rw [ih hrest hm', hxp]
      simp


/-! ## Per-edge counts in the rebuilt relationship lists -/

theorem p2f_entry_of_mem {files : List File} {kv : String × List String}
    (hkv : kv ∈ p2fOf files) :
    kv.2 = (files.filter (fun f => f.package == kv.1)).map (·.spdx_id) := by
  have hget := dictGet_of_mem_nodup (p2fOf_keys_nodup files) hkv
  rw [p2fOf_get] at hget
  split at hget
  · cases hget
  · exact (Option.some_inj.mp hget).symm

theorem count_describesOf_of_type_ne {pkgs : List (String × Package)} {sorted : List String}
    {p2f : List (String × List String)} {r : Relationship}
    (hr : r.relationship_type ≠ "DESCRIBES") :
    (describesOf pkgs sorted p2f).count r = 0 := by
  rw [List.count_eq_zero]
  intro hmem
  obtain ⟨_, _, _, _, _, hre⟩ := describesOf_mem hmem
  apply hr
  rw [hre]

theorem count_containsOf_of_type_ne {pkgs : List (String × Package)}
    {p2f : List (String × List String)} {r : Relationship}
    (hr : r.relationship_type ≠ "CONTAINS") :
    (containsOf pkgs p2f).count r = 0 := by
  rw [List.count_eq_zero]
  intro hmem
  obtain ⟨_, _, _, _, _, _, _, hre⟩ := containsOf_mem hmem
  apply hr
  rw [hre]

theorem count_filter_keepRel_zero {rels : List Relationship} {r : Relationship}
    (hr : keepRel r = false) : (rels.filter keepRel).count r = 0 := by
  rw [List.count_eq_zero]
  intro hmem
  have hk := List.of_mem_filter hmem
  rw [hr] at hk
  cases hk

theorem describesOf_count_doc {env : Env} {data d' : Data}
    (h : pre_process env data = some d') (hnd : (dictKeys data.packages).Nodup)
    {pid : String} {pkg : Package} (hget : dictGet d'.packages pid = some pkg)
    (p2f : List (String × List String)) :
    (describesOf d'.packages d'.packages_sorted p2f).count
        ⟨"SPDXRef-DOCUMENT", "DESCRIBES", pkg.spdx_id.getD ""⟩ =
      if dictContains p2f pid then 1 else 0 := by
  rw [describesOf_count, pre_process_packages_sorted h]
  have hsnd : (pySortStr (dictKeys data.packages)).Nodup := pySortStr_nodup hnd
  have hpidmem : pid ∈ pySortStr (dictKeys data.packages) := by
    unfold pySortStr
    refine mem_sortByKey.mpr ?_
    rw [← pre_process_package_keys h]
    exact dictContains_iff_mem_keys.mp (dictContains_iff_get.mpr ⟨pkg, hget⟩)
  have hcongr : ∀ x ∈ pySortStr (dictKeys data.packages),
      (match dictGet d'.packages x with
       | none => false
       | some pkgx =>
         (optTruthy pkgx.spdx_id && dictContains p2f x) &&
           ((⟨"SPDXRef-DOCUMENT", "DESCRIBES", pkgx.spdx_id.getD ""⟩ : Relationship) ==
             ⟨"SPDXRef-DOCUMENT", "DESCRIBES", pkg.spdx_id.getD ""⟩))
      = (x == pid && dictContains p2f x) := by
    intro x hx
    have hxkeys : x ∈ dictKeys d'.packages := by
      rw [pre_process_package_keys h]
      unfold pySortStr at hx
      exact mem_sortByKey.mp hx
    obtain ⟨pkgx, hgx⟩ := dictContains_iff_get.mp (dictContains_iff_mem_keys.mpr hxkeys)
    rw [hgx]
    by_cases hxe : x = pid
    · have hpkgx : pkgx = pkg := by
        rw [hxe, hget] at hgx
        exact (Option.some_inj.mp hgx).symm
      dsimp only
      rw [hpkgx, hxe]
      rw [pre_process_package_truthy h hnd hget]
      simp
    · have hx_ne : pkgx.spdx_id.getD "" ≠ pkg.spdx_id.getD "" :=
        pre_process_package_spdx_inj h hnd hgx hget hxe
      dsimp only
      have hbeq : ((⟨"SPDXRef-DOCUMENT", "DESCRIBES", pkgx.spdx_id.getD ""⟩ : Relationship) ==
          ⟨"SPDXRef-DOCUMENT", "DESCRIBES", pkg.spdx_id.getD ""⟩) = false := by
        rw [beq_eq_false_iff_ne]
        intro hc
        exact hx_ne (congrArg Relationship.related_spdx_id hc)
      have hxpid : (x == pid) = false := by simp [hxe]
      rw [hbeq, hxpid]
      simp
  have hcongr2 : ∀ x ∈ pySortStr (dictKeys data.packages),
      ((match dictGet d'.packages x with
       | none => false
       | some pkgx =>
         (optTruthy pkgx.spdx_id && dictContains p2f x) &&
           ((⟨"SPDXRef-DOCUMENT", "DESCRIBES", pkgx.spdx_id.getD ""⟩ : Relationship) ==
             ⟨"SPDXRef-DOCUMENT", "DESCRIBES", pkg.spdx_id.getD ""⟩)) = true)
      ↔ ((x == pid && dictContains p2f x) = true) := by
    intro x hx
    rw [hcongr x hx]
  rw [List.countP_congr hcongr2]
  exact countP_beq_and_eq_ite pid (dictContains p2f) (pySortStr (dictKeys data.packages))
    hsnd hpidmem

theorem containsOf_count_file {env : Env} {data d' : Data}
    (h : pre_process env data = some d') (hnd : (dictKeys data.packages).Nodup)
    {pid : String} {pkg : Package} (hget : dictGet d'.packages pid = some pkg)
    {f : File} (hf : f ∈ d'.files) :
    (containsOf d'.packages (p2fOf d'.files)).count
        ⟨pkg.spdx_id.getD "", "CONTAINS", f.spdx_id⟩ =
      if f.package = pid then 1 else 0 := by
  have hfnd : (d'.files.map (·.spdx_id)).Nodup := by
    rw [pre_process_files h]
    exact processFiles_spdx_nodup env data.files
  have hsubnd : ∀ p : File → Bool, ((d'.files.filter p).map (·.spdx_id)).Nodup := by
    intro p
    exact hfnd.sublist (List.Sublist.map _ (List.filter_sublist d'.files))
  have hgrpzero : ∀ kv ∈ p2fOf d'.files, ∀ pkg2 : Package,
      dictGet d'.packages kv.1 = some pkg2 →
      (kv.1 = pid → f.package ≠ pid) →
      (kv.2.map (fun fid =>
        ({ spdx_id := pkg2.spdx_id.getD "", relationship_type := "CONTAINS",
           related_spdx_id := fid } : Relationship))).count
        ⟨pkg.spdx_id.getD "", "CONTAINS", f.spdx_id⟩ = 0 := by
    intro kv hkv pkg2 hg2 hcase
    rw [List.count_eq_zero]
    intro hmem
    obtain ⟨fid, hfid, hedge⟩ := List.mem_map.mp hmem
    by_cases hke : kv.1 = pid
    · have hfp := hcase hke
      have hpkg2 : pkg2 = pkg := by
        rw [hke, hget] at hg2
        exact (Option.some_inj.mp hg2).symm
      have hfidf : fid = f.spdx_id := congrArg Relationship.related_spdx_id hedge
      rw [p2f_entry_of_mem hkv, hke] at hfid
      obtain ⟨g, hgmem, hgspdx⟩ := List.mem_map.mp hfid
      have hgf : g = f := by
        have hinj := List.inj_on_of_nodup_map hfnd
        exact hinj (List.mem_filter.mp hgmem).1 hf (by rw [hgspdx, hfidf])
      have hgp := (List.mem_filter.mp hgmem).2
      rw [hgf] at hgp
      exact hfp (by simpa using hgp)
    · have hne : pkg2.spdx_id.getD "" ≠ pkg.spdx_id.getD "" :=
        pre_process_package_spdx_inj h hnd hg2 hget hke
      exact hne (congrArg Relationship.spdx_id hedge)
  rw [containsOf_count]
  by_cases hfp : f.package = pid
  · rw [if_pos hfp]
    have hpidmem : pid ∈ dictKeys (p2fOf d'.files) :=
      dictContains_iff_mem_keys.mp (p2fOf_contains.mpr ⟨f, hf, hfp⟩)
    have hterm : ∀ kv ∈ p2fOf d'.files,
        (match dictGet d'.packages kv.1 with
         | none => 0
         | some pkg2 =>
           if optTruthy pkg2.spdx_id then
             (kv.2.map (fun fid =>
               ({ spdx_id := pkg2.spdx_id.getD "", relationship_type := "CONTAINS",
                  related_spdx_id := fid } : Relationship))).count
               ⟨pkg.spdx_id.getD "", "CONTAINS", f.spdx_id⟩
           else 0)
        = if (fun kv : String × List String => kv.1 == pid) kv then 1 else 0 := by
      intro kv hkv
      by_cases hke : kv.1 = pid
      · rw [hke, hget]
        dsimp only
        rw [pre_process_package_truthy h hnd hget, if_pos rfl]
        have hkv2 := p2f_entry_of_mem hkv
        rw [hkv2, hke]
        have hinj : Function.Injective (fun fid =>
            ({ spdx_id := pkg.spdx_id.getD "", relationship_type := "CONTAINS",
               related_spdx_id := fid } : Relationship)) := by
          intro a b hab
          exact congrArg Relationship.related_spdx_id hab
        rw [List.count_map_of_injective _ _ hinj]
        have hfmem : f.spdx_id ∈ (d'.files.filter (fun g => g.package == pid)).map (·.spdx_id) :=
          List.mem_map.mpr ⟨f, List.mem_filter.mpr ⟨hf, by simp [hfp]⟩, rfl⟩
        rw [count_eq_one_of_nodup_mem (hsubnd _) hfmem]
        simp [hke]
      · cases hg2 : dictGet d'.packages kv.1 with
        | none =>
          dsimp only
          simp [hke]
        | some pkg2 =>
          dsimp only
          rw [hgrpzero kv hkv pkg2 hg2 (fun hc => absurd hc hke)]
          simp [hke]
    rw [List.map_congr_left hterm, sum_map_ite_eq_countP]
    have hkeys : (p2fOf d'.files).countP (fun kv => kv.1 == pid) =
        (dictKeys (p2fOf d'.files)).countP (fun x => x == pid) := by
      unfold dictKeys
      rw [List.countP_map]
      rfl
    rw [hkeys]
    exact countP_beq_eq_one (p2fOf_keys_nodup d'.files) hpidmem
  · rw [if_neg hfp]
    have hterm : ∀ kv ∈ p2fOf d'.files,
        (match dictGet d'.packages kv.1 with
         | none => 0
         | some pkg2 =>
           if optTruthy pkg2.spdx_id then
             (kv.2.map (fun fid =>
               ({ spdx_id := pkg2.spdx_id.getD "", relationship_type := "CONTAINS",
                  related_spdx_id := fid } : Relationship))).count
               ⟨pkg.spdx_id.getD "", "CONTAINS", f.spdx_id⟩
           else 0)
        = (fun kv : String × List String => 0) kv := by
      intro kv hkv
      cases hg2 : dictGet d'.packages kv.1 with
      | none => rfl
      | some pkg2 =>
        dsimp only
        rw [hgrpzero kv hkv pkg2 hg2 (fun _ => hfp)]
        simp
    rw [List.map_congr_left hterm]
    simp


/-! ## Claim C5 -/

theorem keepRel_eq_false_of_describes {r : Relationship}
    (h1 : r.spdx_id = "SPDXRef-DOCUMENT") (h2 : r.relationship_type = "DESCRIBES") :
    keepRel r = false := by
  obtain ⟨a, b, c⟩ := r
  have ha : a = "SPDXRef-DOCUMENT" := h1
  have hb : b = "DESCRIBES" := h2
  rw [ha, hb]
  exact keepRel_describes c

theorem keepRel_eq_false_of_contains {r : Relationship}
    (ht : r.relationship_type = "CONTAINS") : keepRel r = false := by
  obtain ⟨a, b, c⟩ := r
  have hb : b = "CONTAINS" := ht
  rw [hb]
  exact keepRel_contains a c

/-- C5: under the stated precondition (every file's package id is a key of
`data.packages`; the association-list embedding additionally states the
Python-dict invariant that those keys are duplicate-free), the final
relationship list contains exactly one document-`DESCRIBES` edge per package
owning at least one file and none for a file-less package, exactly one
`CONTAINS` edge from the owning package to each owned file and none for a
non-owning package/file pair; no document-`DESCRIBES` or `CONTAINS` edge is
carried over from the input — every output edge of those two kinds is one of
the freshly built ones, referencing a current package that owns a current
file — and all other input relationships pass through unchanged. -/
theorem C5_relationships (env : Env) (data d' : Data)
    (hnd : (dictKeys data.packages).Nodup)
    (_hpre : ∀ f ∈ data.files, dictContains data.packages f.package = true)
    (h : pre_process env data = some d') :
    ∃ rels, d'.relationships = some rels ∧
      rels.filter keepRel = (data.relationships.getD []).filter keepRel ∧
      (∀ r ∈ rels, keepRel r = true → r ∈ data.relationships.getD []) ∧
      (∀ r ∈ rels,
        (r.spdx_id = "SPDXRef-DOCUMENT" ∧ r.relationship_type = "DESCRIBES" →
          ∃ pid pkg, dictGet d'.packages pid = some pkg ∧
            (∃ f ∈ d'.files, f.package = pid) ∧
            r = ⟨"SPDXRef-DOCUMENT", "DESCRIBES", pkg.spdx_id.getD ""⟩) ∧
        (r.relationship_type = "CONTAINS" →
          ∃ pid pkg, dictGet d'.packages pid = some pkg ∧
            ∃ f ∈ d'.files, f.package = pid ∧
              r = ⟨pkg.spdx_id.getD "", "CONTAINS", f.spdx_id⟩)) ∧
      ∀ pid pkg, dictGet d'.packages pid = some pkg →
        (((∃ f ∈ d'.files, f.package = pid) →
           rels.count ⟨"SPDXRef-DOCUMENT", "DESCRIBES", pkg.spdx_id.getD ""⟩ = 1) ∧
         ((∀ f ∈ d'.files, f.package ≠ pid) →
           rels.count ⟨"SPDXRef-DOCUMENT", "DESCRIBES", pkg.spdx_id.getD ""⟩ = 0) ∧
         (∀ f ∈ d'.files, f.package = pid →
           rels.count ⟨pkg.spdx_id.getD "", "CONTAINS", f.spdx_id⟩ = 1) ∧
         (∀ f ∈ d'.files, f.package ≠ pid →
           rels.count ⟨pkg.spdx_id.getD "", "CONTAINS", f.spdx_id⟩ = 0)) := by
  have hrel := pre_process_relationships h
  refine ⟨_, hrel, ?_, ?_, ?_, ?_⟩
  · rw [List.filter_append, List.filter_append,
      filter_keepRel_describesOf, filter_keepRel_containsOf,
      List.append_nil, List.append_nil, List.filter_filter]
    simp [Bool.and_self]
  · intro r hr hkeep
    rcases List.mem_append.mp hr with hr1 | hr2
    · rcases List.mem_append.mp hr1 with hb | hd
      · exact List.mem_of_mem_filter hb
      · obtain ⟨_, _, _, _, _, hre⟩ := describesOf_mem hd
        rw [hre, keepRel_describes] at hkeep
        cases hkeep
    · obtain ⟨_, _, _, _, _, _, _, hre⟩ := containsOf_mem hr2
      rw [hre, keepRel_contains] at hkeep
      cases hkeep
  · intro r hr
    constructor
    · rintro ⟨hdoc, hdes⟩
      rcases List.mem_append.mp hr with hr1 | hr2
      · rcases List.mem_append.mp hr1 with hb | hd
        · have hk := List.of_mem_filter hb
          rw [keepRel_eq_false_of_describes hdoc hdes] at hk
          cases hk
        · obtain ⟨pid, _, pkg, hg, hcond, hre⟩ := describesOf_mem hd
          have hcon : dictContains (p2fOf d'.files) pid = true := by
            simp only [Bool.and_eq_true] at hcond
            exact hcond.2
          obtain ⟨f, hf, hfp⟩ := p2fOf_contains.mp hcon
          exact ⟨pid, pkg, hg, ⟨f, hf, hfp⟩, hre⟩
      · obtain ⟨_, _, _, _, _, _, _, hre⟩ := containsOf_mem hr2
        rw [hre] at hdes
        exact absurd hdes (by decide : ¬(("CONTAINS" : String) = "DESCRIBES"))
    · intro hcont
      rcases List.mem_append.mp hr with hr1 | hr2
      · rcases List.mem_append.mp hr1 with hb | hd
        · have hk := List.of_mem_filter hb
          rw [keepRel_eq_false_of_contains hcont] at hk
          cases hk
        · obtain ⟨_, _, _, _, _, hre⟩ := describesOf_mem hd
          rw [hre] at hcont
          exact absurd hcont (by decide : ¬(("DESCRIBES" : String) = "CONTAINS"))
      · obtain ⟨kv, hkv, pkg, hg, _, fid, hfid, hre⟩ := containsOf_mem hr2
        rw [p2f_entry_of_mem hkv] at hfid
        obtain ⟨f, hfmem, hfspdx⟩ := List.mem_map.mp hfid
        have hfp : f.package = kv.1 := by simpa using (List.mem_filter.mp hfmem).2
        exact ⟨kv.1, pkg, hg, f, (List.mem_filter.mp hfmem).1, hfp, by rw [hre, hfspdx]⟩
  · intro pid pkg hget
    have hbase0 : ∀ r : Relationship, keepRel r = false →
        ((data.relationships.getD []).filter keepRel).count r = 0 :=
      fun r hr => count_filter_keepRel_zero hr
    have hdtot : (((data.relationships.getD []).filter keepRel ++
        describesOf d'.packages d'.packages_sorted (p2fOf d'.files) ++
        containsOf d'.packages (p2fOf d'.files)).count
          ⟨"SPDXRef-DOCUMENT", "DESCRIBES", pkg.spdx_id.getD ""⟩) =
        if dictContains (p2fOf d'.files) pid then 1 else 0 := by
      have htyp : (⟨"SPDXRef-DOCUMENT", "DESCRIBES", pkg.spdx_id.getD ""⟩ :
          Relationship).relationship_type ≠ "CONTAINS" :=
        (by decide : ("DESCRIBES" : String) ≠ "CONTAINS")
      rw [List.count_append, List.count_append]
      rw [hbase0 _ (keepRel_describes _)]
      rw [describesOf_count_doc h hnd hget (p2fOf d'.files)]
      rw [count_containsOf_of_type_ne htyp]
      simp
    have hctot : ∀ f : File, f ∈ d'.files →
        (((data.relationships.getD []).filter keepRel ++
          describesOf d'.packages d'.packages_sorted (p2fOf d'.files) ++
          containsOf d'.packages (p2fOf d'.files)).count
            ⟨pkg.spdx_id.getD "", "CONTAINS", f.spdx_id⟩) =
          if f.package = pid then 1 else 0 := by
      intro f hf
      have htyp : (⟨pkg.spdx_id.getD "", "CONTAINS", f.spdx_id⟩ :
          Relationship).relationship_type ≠ "DESCRIBES" :=
        (by decide : ("CONTAINS" : String) ≠ "DESCRIBES")
      rw [List.count_append, List.count_append]
      rw [hbase0 _ (keepRel_contains _ _)]
      rw [count_describesOf_of_type_ne htyp]
      rw [containsOf_count_file h hnd hget hf]
      simp
    refine ⟨?_, ?_, ?_, ?_⟩
    · intro hex
      rw [hdtot, if_pos]
      rcases hex with ⟨f, hf, hfp⟩
      exact p2fOf_contains.mpr ⟨f, hf, hfp⟩
    · intro hall
      rw [hdtot, if_neg]
      intro hcon
      obtain ⟨f, hf, hfp⟩ := p2fOf_contains.mp hcon
      exact hall f hf hfp
    · intro f hf hfp
      rw [hctot f hf, if_pos hfp]
    · intro f hf hfp
      rw [hctot f hf, if_neg hfp]

/-- C5 witness: on a concrete data set with one package owning one file and
three input relationships, `pre_process` succeeds and the theorem applies;
the kept relationships are exactly the filtered input, and the input's stale
document-`DESCRIBES` and `CONTAINS` edges are absent from the output. -/
theorem C5_witness :
    (dictKeys dataC5.packages).Nodup ∧
    (∀ f ∈ dataC5.files, dictContains dataC5.packages f.package = true) ∧
    ∃ d' rels, pre_process env0 dataC5 = some d' ∧ d'.relationships = some rels ∧
      rels.filter keepRel = (dataC5.relationships.getD []).filter keepRel ∧
      (⟨"SPDXRef-DOCUMENT", "DESCRIBES", "stale-pkg"⟩ : Relationship) ∉ rels ∧
      (⟨"stale-src", "CONTAINS", "stale-file"⟩ : Relationship) ∉ rels := by
  have hsome : (pre_process env0 dataC5).isSome = true := by decide
  obtain ⟨d', hd'⟩ := Option.isSome_iff_exists.mp hsome
  have hnd : (dictKeys dataC5.packages).Nodup := by decide
  have hpre : ∀ f ∈ dataC5.files, dictContains dataC5.packages f.package = true := by decide
  obtain ⟨rels, hrels, hfil, _⟩ := C5_relationships env0 dataC5 d' hnd hpre hd'
  have hstale : (pre_process env0 dataC5).map (fun d =>
      ((d.relationships.getD []).count ⟨"SPDXRef-DOCUMENT", "DESCRIBES", "stale-pkg"⟩,
       (d.relationships.getD []).count ⟨"stale-src", "CONTAINS", "stale-file"⟩)) =
      some (0, 0) := by decide
  rw [hd'] at hstale
  have hpair := Option.some_inj.mp hstale
  have hc1 : (d'.relationships.getD []).count
      (⟨"SPDXRef-DOCUMENT", "DESCRIBES", "stale-pkg"⟩ : Relationship) = 0 :=
    congrArg Prod.fst hpair
  have hc2 : (d'.relationships.getD []).count
      (⟨"stale-src", "CONTAINS", "stale-file"⟩ : Relationship) = 0 :=
    congrArg Prod.snd hpair
  rw [hrels] at hc1 hc2
  simp only [Option.getD_some] at hc1 hc2
  exact ⟨hnd, hpre, d', rels, hd', hrels, hfil,
    List.count_eq_zero.mp hc1, List.count_eq_zero.mp hc2⟩


/-! ## Claim C8 -/

/-- C8 counterexample: on an input whose single file references the package
id `P` absent from `data.packages`, `pre_process` completes normally (no
lookup failure is raised) and the relationship list is empty — the file was
silently omitted from the relationship graph. -/
theorem C8_counterexample :
    ∃ d, pre_process env0 dataNoLic = some d ∧ d.relationships = some [] := by
  have hne : pre_process env0 dataNoLic ≠ none := by decide
  obtain ⟨d, hd⟩ := Option.ne_none_iff_exists'.mp hne
  refine ⟨d, hd, ?_⟩
  have h2 : (pre_process env0 dataNoLic).map (fun x => x.relationships) =
      some (some []) := by decide
  rw [hd] at h2
  exact Option.some_inj.mp h2

/-- C8 (amended): the lookup in the `CONTAINS` loop is `data.packages.get`
guarded by a `continue`, so a file whose package id is absent from
`data.packages` does not raise — `pre_process` completes and no `CONTAINS`
edge of the output references that file's `spdx_id`; the file is silently
omitted from the relationship graph. -/
theorem C8_dangling_file_silently_omitted (env : Env) (data d' : Data)
    (h : pre_process env data = some d')
    {f : File} (hf : f ∈ d'.files)
    (habs : dictContains data.packages f.package = false) :
    ∀ r ∈ d'.relationships.getD [], r.relationship_type = "CONTAINS" →
      r.related_spdx_id ≠ f.spdx_id := by
  have hrel := pre_process_relationships h
  rw [hrel]
  intro r hr ht hc
  rcases List.mem_append.mp hr with hr1 | hr2
  · rcases List.mem_append.mp hr1 with hb | hd
    · have hk := List.of_mem_filter hb
      rw [keepRel_eq_false_of_contains ht] at hk
      cases hk
    · obtain ⟨_, _, _, _, _, hre⟩ := describesOf_mem hd
      rw [hre] at ht
      exact absurd ht (by decide : ¬(("DESCRIBES" : String) = "CONTAINS"))
  · obtain ⟨kv, hkv, pkg, hgp, _, fid, hfid, hre⟩ := containsOf_mem hr2
    have hfid_eq : fid = f.spdx_id := by
      rw [hre] at hc
      exact hc
    rw [p2f_entry_of_mem hkv] at hfid
    obtain ⟨g, hgmem, hgspdx⟩ := List.mem_map.mp hfid
    have hfnd : (d'.files.map (·.spdx_id)).Nodup := by
      rw [pre_process_files h]
      exact processFiles_spdx_nodup env data.files
    have hgf : g = f := by
      have hinj := List.inj_on_of_nodup_map hfnd
      exact hinj (List.mem_filter.mp hgmem).1 hf (by rw [hgspdx, hfid_eq])
    have hgp2 := (List.mem_filter.mp hgmem).2
    rw [hgf] at hgp2
    have hfpkg : f.package = kv.1 := by simpa using hgp2
    have hcon : dictContains data.packages f.package = true := by
      rw [dictContains_iff_mem_keys, ← pre_process_package_keys h, hfpkg]
      exact dictContains_iff_mem_keys.mp (dictContains_iff_get.mpr ⟨pkg, hgp⟩)
    rw [habs] at hcon
    cases hcon

/-- C8 witness: the amended theorem applied to the concrete dangling-package
input: the run completes and no `CONTAINS` edge references the file. -/
theorem C8_witness :
    ∃ d, pre_process env0 dataNoLic = some d ∧
      ∃ f ∈ d.files, dictContains dataNoLic.packages f.package = false ∧
        ∀ r ∈ d.relationships.getD [], r.relationship_type = "CONTAINS" →
          r.related_spdx_id ≠ f.spdx_id := by
  have hne : pre_process env0 dataNoLic ≠ none := by decide
  obtain ⟨d, hd⟩ := Option.ne_none_iff_exists'.mp hne
  have hfiles : d.files = [⟨"a.c", [], [], "P", "", "SPDXRef-File-1"⟩] := by
    have h2 : (pre_process env0 dataNoLic).map (fun x => x.files) =
        some [⟨"a.c", [], [], "P", "", "SPDXRef-File-1"⟩] := by decide
    rw [hd] at h2
    exact Option.some_inj.mp h2
  have hfmem : (⟨"a.c", [], [], "P", "", "SPDXRef-File-1"⟩ : File) ∈ d.files := by
    rw [hfiles]
    exact List.mem_singleton_self _
  exact ⟨d, hd, ⟨"a.c", [], [], "P", "", "SPDXRef-File-1"⟩, hfmem, by decide,
    C8_dangling_file_silently_omitted env0 dataNoLic d hd hfmem (by decide)⟩


/-! ## Catalog values stay non-`None` across a second run -/

theorem resolveId_isSome {env : Env} {dataLicenses : LicDict}
    (henv : ∀ s, env.is_spdx_license s = true → (env.get_license s).isSome = true)
    (hdl : ∀ kv ∈ dataLicenses, kv.1 = "" ∨ kv.2.isSome = true)
    {id : String} (hid : id ≠ "") : (resolveId env dataLicenses id).isSome = true := by
  unfold resolveId
  split
  · rename_i hspdx
    have hgl := henv id hspdx
    cases hget : env.get_license id with
    | none => rw [hget] at hgl; cases hgl
    | some l => rfl
  · split
    · rename_i hcon
      obtain ⟨v, hv⟩ := dictContains_iff_get.mp hcon
      rw [hv]
      have hmem := mem_of_dictGet hv
      rcases hdl _ hmem with h1 | h2
      · exact absurd h1 hid
      · exact h2
    · cases hgl : env.get_license id with
      | none => rfl
      | some l => rfl

theorem catalogIdStep_ok {env : Env} {dataLicenses : LicDict}
    (henv : ∀ s, env.is_spdx_license s = true → (env.get_license s).isSome = true)
    (hdl : ∀ kv ∈ dataLicenses, kv.1 = "" ∨ kv.2.isSome = true)
    {used : LicDict} (hused : ∀ kv ∈ used, kv.1 = "" ∨ kv.2.isSome = true) (id : String) :
    ∀ kv ∈ catalogIdStep env dataLicenses used id, kv.1 = "" ∨ kv.2.isSome = true := by
  unfold catalogIdStep
  split
  · exact hused
  · intro kv hkv
    rcases List.mem_append.mp hkv with hm | hm
    · exact hused kv hm
    · rw [List.mem_singleton] at hm
      subst hm
      by_cases hid : id = ""
      · exact Or.inl hid
      · exact Or.inr (resolveId_isSome henv hdl hid)

theorem catalogIdFold_ok {env : Env} {dataLicenses : LicDict}
    (henv : ∀ s, env.is_spdx_license s = true → (env.get_license s).isSome = true)
    (hdl : ∀ kv ∈ dataLicenses, kv.1 = "" ∨ kv.2.isSome = true) :
    ∀ (ids : List String) (used : LicDict),
      (∀ kv ∈ used, kv.1 = "" ∨ kv.2.isSome = true) →
      ∀ kv ∈ ids.foldl (catalogIdStep env dataLicenses) used, kv.1 = "" ∨ kv.2.isSome = true := by
  intro ids
  induction ids with
  | nil => intro used hused; exact hused
  | cons x rest ih =>
    intro used hused
    exact ih _ (catalogIdStep_ok henv hdl hused x)

theorem catalogStep_ok {env : Env} {dataLicenses : LicDict}
    (henv : ∀ s, env.is_spdx_license s = true → (env.get_license s).isSome = true)
    (hdl : ∀ kv ∈ dataLicenses, kv.1 = "" ∨ kv.2.isSome = true)
    {used : LicDict} (hused : ∀ kv ∈ used, kv.1 = "" ∨ kv.2.isSome = true)
    (license_expr : String) :
    ∀ kv ∈ catalogStep env dataLicenses used license_expr,
      kv.1 = "" ∨ kv.2.isSome = true := by
  unfold catalogStep
  split
  · exact hused
  · refine catalogIdFold_ok henv hdl _ _ ?_
    split
    · intro kv hkv
      rcases List.mem_append.mp hkv with hm | hm
      · exact hused kv hm
      · rw [List.mem_singleton] at hm
        subst hm
        exact Or.inr rfl
    · exact hused

theorem catalogFold_ok {env : Env} {dataLicenses : LicDict}
    (henv : ∀ s, env.is_spdx_license s = true → (env.get_license s).isSome = true)
    (hdl : ∀ kv ∈ dataLicenses, kv.1 = "" ∨ kv.2.isSome = true) :
    ∀ (exprs : List String) (used : LicDict),
      (∀ kv ∈ used, kv.1 = "" ∨ kv.2.isSome = true) →
      ∀ kv ∈ exprs.foldl (catalogStep env dataLicenses) used,
        kv.1 = "" ∨ kv.2.isSome = true := by
  intro exprs
  induction exprs with
  | nil => intro used hused; exact hused
  | cons x rest ih =>
    intro used hused
    exact ih _ (catalogStep_ok henv hdl hused x)

theorem pre_process_licenses_ok {env : Env} {data d' : Data}
    (h : pre_process env data = some d') :
    ∀ kv ∈ d'.licenses, kv.1 = "" ∨ kv.2.isSome = true := by
  obtain ⟨dmid, h1, rfl⟩ := pre_process_destruct h
  have hl : (relationshipsPass (packageInfoPass (spdxAssignPass
      (packagesSortedPass dmid)))).licenses = dmid.licenses := by
    simp [relationshipsPass, packageInfoPass, spdxAssignPass, packagesSortedPass]
  rw [hl]
  have hmid := licensesSortedPass_fields h1
  unfold licensesSortedPass at h1
  split at h1
  · rename_i hcheck
    intro kv hkv
    have hkv' : kv ∈ (catalogPass env (detectorsPass (licenseExprPass env
        (sortFilesPass data)))).licenses := by
      rw [hmid] at hkv
      exact hkv
    have hp := List.all_eq_true.mp hcheck kv hkv'
    rcases Bool.or_eq_true_iff.mp hp with hp1 | hp2
    · exact Or.inl (by simpa using hp1)
    · exact Or.inr hp2
  · cases h1


/-! ## A second run cannot fail, and assigns the same identifiers -/

theorem pre_process_some_of_ok {env : Env} {d : Data}
    (henv : ∀ s, env.is_spdx_license s = true → (env.get_license s).isSome = true)
    (hok : ∀ kv ∈ d.licenses, kv.1 = "" ∨ kv.2.isSome = true) :
    ∃ d2, pre_process env d = some d2 := by
  have hdl : (detectorsPass (licenseExprPass env (sortFilesPass d))).licenses = d.licenses := by
    simp [detectorsPass, licenseExprPass, sortFilesPass]
  have hcat : ∀ kv ∈ (catalogPass env (detectorsPass (licenseExprPass env
      (sortFilesPass d)))).licenses, kv.1 = "" ∨ kv.2.isSome = true := by
    intro kv hkv
    simp only [catalogPass] at hkv
    rw [hdl] at hkv
    rw [← List.foldl_map (fun f : File => f.license_expr) (catalogStep env d.licenses)] at hkv
    exact catalogFold_ok henv hok _ [] (by intro kv2 h2; cases h2) kv hkv
  cases hs : licensesSortedPass (catalogPass env (detectorsPass (licenseExprPass env
      (sortFilesPass d)))) with
  | some dmid =>
    refine ⟨relationshipsPass (packageInfoPass (spdxAssignPass (packagesSortedPass dmid))), ?_⟩
    unfold pre_process
    rw [hs]
    rfl
  | none =>
    exfalso
    unfold licensesSortedPass at hs
    split at hs
    · cases hs
    · rename_i hfail
      apply hfail
      rw [List.all_eq_true]
      intro kv hkv
      rcases hcat kv hkv with h1 | h2
      · simp [h1]
      · simp [h2]

theorem get_eq_of_list_eq {l l2 : List String} (h : l = l2) {i : Nat}
    (hi : i < l.length) (hi2 : i < l2.length) :
    l.get ⟨i, hi⟩ = l2.get ⟨i, hi2⟩ := by
  subst h
  rfl

theorem runs_spdx_agree {env : Env} {data d1 d2 : Data}
    (hnd : (dictKeys data.packages).Nodup)
    (h1 : pre_process env data = some d1) (h2 : pre_process env d1 = some d2) :
    ∀ pid, (dictGet d2.packages pid).map (·.spdx_id) =
      (dictGet d1.packages pid).map (·.spdx_id) := by
  intro pid
  have hk1 := pre_process_package_keys h1
  have hk2 := pre_process_package_keys h2
  have hnd1 : (dictKeys d1.packages).Nodup := by
    rw [hk1]
    exact hnd
  by_cases hmem : pid ∈ dictKeys data.packages
  · obtain ⟨pk1, hg1⟩ := dictContains_iff_get.mp (dictContains_iff_mem_keys.mpr
      (by rw [hk1]; exact hmem))
    obtain ⟨pk2, hg2⟩ := dictContains_iff_get.mp (dictContains_iff_mem_keys.mpr
      (by rw [hk2, hk1]; exact hmem))
    obtain ⟨i1, hi1, hgi1, hs1⟩ := pre_process_package_spdx_shape h1 hnd hg1
    obtain ⟨i2, hi2, hgi2, hs2⟩ := pre_process_package_spdx_shape h2 hnd1 hg2
    have hlist : pySortStr (dictKeys d1.packages) = pySortStr (dictKeys data.packages) := by
      rw [hk1]
    have hi2b : i2 < (pySortStr (dictKeys data.packages)).length := by
      rw [← hlist]
      exact hi2
    have hgi2b : (pySortStr (dictKeys data.packages)).get ⟨i2, hi2b⟩ = pid :=
      (get_eq_of_list_eq hlist hi2 hi2b).symm.trans hgi2
    have hinj := List.nodup_iff_injective_get.mp (pySortStr_nodup hnd)
    have hgg : (pySortStr (dictKeys data.packages)).get ⟨i1, hi1⟩ =
        (pySortStr (dictKeys data.packages)).get ⟨i2, hi2b⟩ := by
      rw [hgi1, hgi2b]
    have hieq : i1 = i2 := congrArg Fin.val (hinj hgg)
    rw [hg1, hg2]
    simp only [Option.map_some']
    rw [hs1, hs2, hieq]
  · have hnone : ∀ pkgs : List (String × Package),
        dictKeys pkgs = dictKeys data.packages → dictGet pkgs pid = none := by
      intro pkgs hkeq
      apply dictGet_none_of_not_contains
      cases hcc : dictContains pkgs pid with
      | false => rfl
      | true =>
        exact absurd (by rw [← hkeq]; exact dictContains_iff_mem_keys.mp hcc) hmem
    rw [hnone d1.packages hk1, hnone d2.packages (by rw [hk2, hk1])]

/-! ## Claim C9 -/

/-- C9: weak idempotence. Running `pre_process` again on a successful
output cannot fail, and reproduces the files (order included, so also the
file ordering) and the very same relationship list (so in particular the
same relationship count). Stated with the dict-embedding hypothesis that
the package keys are duplicate-free (true of every Python dict) and the
spec-modelled registry contract that `get_license` returns an object for
every id the registry recognizes (`license_utils` is outside src/). -/
theorem C9_weak_idempotence (env : Env) (data d1 : Data)
    (hnd : (dictKeys data.packages).Nodup)
    (henv : ∀ s, env.is_spdx_license s = true → (env.get_license s).isSome = true)
    (h1 : pre_process env data = some d1) :
    ∃ d2, pre_process env d1 = some d2 ∧ d2.files = d1.files ∧
      d2.relationships = d1.relationships := by
  obtain ⟨d2, h2⟩ := pre_process_some_of_ok henv (pre_process_licenses_ok h1)
  have hfiles : d2.files = d1.files := by
    rw [pre_process_files h2, pre_process_files h1, processFiles_idem]
  have hrel1 := pre_process_relationships h1
  have hrel2 := pre_process_relationships h2
  have hagree := runs_spdx_agree hnd h1 h2
  have hsorted : d2.packages_sorted = d1.packages_sorted := by
    rw [pre_process_packages_sorted h2, pre_process_packages_sorted h1,
      pre_process_package_keys h1]
  have hbase : (d1.relationships.getD []).filter keepRel =
      (data.relationships.getD []).filter keepRel := by
    rw [hrel1]
    simp only [Option.getD_some]
    rw [List.filter_append, List.filter_append, filter_keepRel_describesOf,
      filter_keepRel_containsOf, List.append_nil, List.append_nil, List.filter_filter]
    simp [Bool.and_self]
  have hdesc : describesOf d2.packages d2.packages_sorted (p2fOf d2.files) =
      describesOf d1.packages d1.packages_sorted (p2fOf d1.files) := by
    rw [hfiles, hsorted]
    exact describesOf_congr (fun pid _ => hagree pid)
  have hcont : containsOf d2.packages (p2fOf d2.files) =
      containsOf d1.packages (p2fOf d1.files) := by
    rw [hfiles]
    exact containsOf_congr hagree _
  refine ⟨d2, h2, hfiles, ?_⟩
  rw [hrel2, hbase, hdesc, hcont]
  exact hrel1.symm

/-- C9 witness: the theorem applied to a concrete successful first run. -/
theorem C9_witness :
    ∃ d1 d2, pre_process env0 dataApache = some d1 ∧ pre_process env0 d1 = some d2 ∧
      d2.files = d1.files ∧ d2.relationships = d1.relationships := by
  have hne : pre_process env0 dataApache ≠ none := by decide
  obtain ⟨d1, hd1⟩ := Option.ne_none_iff_exists'.mp hne
  have hnd : (dictKeys dataApache.packages).Nodup := by decide
  have henv : ∀ s, env0.is_spdx_license s = true → (env0.get_license s).isSome = true := by
    intro s hs
    simp only [env0] at hs ⊢
    simp [hs]
  obtain ⟨d2, h2, hf, hr⟩ := C9_weak_idempotence env0 dataApache d1 hnd henv hd1
  exact ⟨d1, d2, hd1, h2, hf, hr⟩

end Sbom
